import Mathlib

/-!
# Verification of `ldif.py` (LDIF generator and parser, RFC 2849 subset)

This file is a shallow embedding of the single source file `ldif.py` of the
repository.  Python 2 byte strings (`str`) are modelled as `List Char` whose
characters carry the byte values 0..255; file objects are modelled as the
remaining byte stream (`List Char`), with `readline` splitting off one
physical line at a time.  Regular-expression matching (used only for the
distinguished-name grammar and the safe-string test) is modelled by an
executable Brzozowski-derivative matcher over a regex AST transcribed
from the pattern strings in the source.

Section order: regular expressions and `is_dn`; writer side (`LDIFWriter`);
parser side (`LDIFParser`); lemmas; claim theorems.
-/

namespace Ldif

/-- Python 2 byte strings: a list of characters with code points 0..255. -/
abbrev Str := List Char

/-- Convert a Lean string literal to our byte-string model. -/
def toStr (s : String) : Str := s.data

/-! ## Regular expressions (Brzozowski derivatives)

`re.compile`d patterns of the source are transcribed into this AST; a string
matches iff the iterated derivative is nullable.  Character classes are
functions `Char → Bool`.  This decides full (anchored) language membership,
which is what `is_dn` consumes (its pattern is `^...$` and it additionally
checks `rm.group(0) == s`, i.e. the whole string was matched). -/

inductive RE where
  | emp : RE
  | eps : RE
  | cls (p : Char → Bool) : RE
  | alt (a b : RE) : RE
  | cat (a b : RE) : RE
  | star (a : RE) : RE

/-- Smart union constructor (drops the empty language). -/
def mkAlt (a b : RE) : RE :=
  match a, b with
  | .emp, b => b
  | a, .emp => a
  | a, b => .alt a b

/-- Smart concatenation constructor (absorbs the empty language and units). -/
def mkCat (a b : RE) : RE :=
  match a, b with
  | .emp, _ => .emp
  | _, .emp => .emp
  | .eps, b => b
  | a, .eps => a
  | a, b => .cat a b

def RE.nullable : RE → Bool
  | .emp => false
  | .eps => true
  | .cls _ => false
  | .alt a b => a.nullable || b.nullable
  | .cat a b => a.nullable && b.nullable
  | .star _ => true

def RE.deriv : RE → Char → RE
  | .emp, _ => .emp
  | .eps, _ => .emp
  | .cls p, c => if p c then .eps else .emp
  | .alt a b, c => mkAlt (a.deriv c) (b.deriv c)
  | .cat a b, c =>
      if a.nullable then mkAlt (mkCat (a.deriv c) b) (b.deriv c)
      else mkCat (a.deriv c) b
  | .star a, c => mkCat (a.deriv c) (.star a)

/-- Anchored match: does the whole string belong to the language of `r`? -/
def rmatch (r : RE) (s : Str) : Bool := (s.foldl RE.deriv r).nullable

/-- `r+` -/
def rplus (r : RE) : RE := .cat r (.star r)

/-- A single literal character. -/
def chrRE (c : Char) : RE := .cls (fun x => x = c)

/-- `\w` of Python 2 `re` on byte strings: `[A-Za-z0-9_]`. -/
def wordChar (c : Char) : Bool :=
  ('A' ≤ c && c ≤ 'Z') || ('a' ≤ c && c ≤ 'z') || ('0' ≤ c && c ≤ '9') || c = '_'

/-- `attrtype_pattern = r'[\w;.-]+(;[\w_-]+)*'` -/
def attrtype_pattern : RE :=
  .cat (rplus (.cls (fun c => wordChar c || c = ';' || c = '.' || c = '-')))
       (.star (.cat (chrRE ';') (rplus (.cls (fun c => wordChar c || c = '_' || c = '-')))))

/-- `attrvalue_pattern = r'(([^,]|\\,)+|".*?")'`; `.` matches anything but LF,
    `[^,]` matches anything but a comma (including LF); laziness of `.*?` is
    irrelevant for language membership. -/
def attrvalue_pattern : RE :=
  .alt (rplus (.alt (.cls (fun c => c ≠ ',')) (.cat (chrRE '\\') (chrRE ','))))
       (.cat (chrRE '"') (.cat (.star (.cls (fun c => c ≠ '\n'))) (chrRE '"')))

/-- `[ ]*` -/
def spacesRE : RE := .star (chrRE ' ')

/-- `attrtypeandvalue_pattern = attrtype_pattern + r'[ ]*=[ ]*' + attrvalue_pattern` -/
def attrtypeandvalue_pattern : RE :=
  .cat attrtype_pattern (.cat spacesRE (.cat (chrRE '=') (.cat spacesRE attrvalue_pattern)))

/-- `rdn_pattern = attrtypeandvalue_pattern + r'([ ]*\+[ ]*' + attrtypeandvalue_pattern + r')*[ ]*'` -/
def rdn_pattern : RE :=
  .cat attrtypeandvalue_pattern
    (.cat (.star (.cat spacesRE (.cat (chrRE '+') (.cat spacesRE attrtypeandvalue_pattern))))
      spacesRE)

/-- `dn_pattern = rdn_pattern + r'([ ]*,[ ]*' + rdn_pattern + r')*[ ]*'` -/
def dn_pattern : RE :=
  .cat rdn_pattern
    (.cat (.star (.cat spacesRE (.cat (chrRE ',') (.cat spacesRE rdn_pattern)))) spacesRE)

/-- `is_dn(s)`: the empty string is a valid DN, otherwise the whole string must
    match `dn_regex = re.compile('^%s$' % dn_pattern)` (the source checks
    `rm.group(0) == s`, i.e. the match consumed all of `s`). -/
def is_dn (s : Str) : Bool := s = [] || rmatch dn_pattern s

/-! ## Writer side (`LDIFWriter`) -/

/-- ASCII lowercasing, as Python 2 `str.lower()` under the default locale. -/
def pyLower (c : Char) : Char :=
  if 'A' ≤ c ∧ c ≤ 'Z' then Char.ofNat (c.toNat + 32) else c

def lowerStr (s : Str) : Str := s.map pyLower

/-- `list_dict(l)`: dict keyed by the lowercased items of `l`; we model the
    key set as the list of lowercased items (membership via `contains`). -/
def list_dict (l : List Str) : List Str := l.map lowerStr

/-- Head alternative of `SAFE_STRING_PATTERN = '(^(\000|\n|\r| |:|<)|...)'`. -/
def safe_head_char (c : Char) : Bool :=
  c = '\x00' || c = '\n' || c = '\r' || c = ' ' || c = ':' || c = '<'

/-- Middle alternative `[\000\n\r\200-\377]+` (octal 200-377 = bytes 128-255). -/
def safe_bad_char (c : Char) : Bool :=
  c = '\x00' || c = '\n' || c = '\r' || (128 ≤ c.toNat && c.toNat ≤ 255)

/-- `safe_string_re.search(v)`: the pattern matches somewhere in `v` iff `v`
    starts with one of `\0 \n \r space : <`, or contains one of
    `\0 \n \r` or a byte ≥ 0x80, or `[ ]+$` matches.  In Python 2 `re`, `$`
    matches at the end of the string or just before a final newline, so the
    last alternative fires iff the last byte is a space, or the last byte is
    a newline preceded by a space. -/
def safe_string_search (v : Str) : Bool :=
  (match v.head? with | some c => safe_head_char c | none => false)
  || v.any safe_bad_char
  || v.getLast? == some ' '
  || (v.getLast? == some '\n' && v.dropLast.getLast? == some ' ')

/-- `LDIFWriter._needs_base64_encoding(attr_type, attr_value)`:
    `attr_type.lower() in self._base64_attrs or safe_string_re.search(attr_value) is not None`,
    where `self._base64_attrs = list_dict(base64_attrs)`. -/
def needs_base64_encoding (base64_attrs : List Str) (t v : Str) : Bool :=
  (list_dict base64_attrs).contains (lowerStr t) || safe_string_search v

/-! ### Base 64

`base64.encodestring(v).replace('\n', '')` is plain base64 encoding with no
internal line breaks; `base64.decodestring` (binascii `a2b_base64`) skips
bytes outside the base64 alphabet and treats `=` as padding. -/

/-- The base64 alphabet character for a 6-bit value. -/
def b64chr (n : Nat) : Char :=
  if n < 26 then Char.ofNat (65 + n)
  else if n < 52 then Char.ofNat (97 + (n - 26))
  else if n < 62 then Char.ofNat (48 + (n - 52))
  else if n = 62 then '+' else '/'

/-- Inverse of the base64 alphabet; `none` for a byte outside the alphabet. -/
def b64val (c : Char) : Option Nat :=
  if 'A' ≤ c ∧ c ≤ 'Z' then some (c.toNat - 65)
  else if 'a' ≤ c ∧ c ≤ 'z' then some (c.toNat - 97 + 26)
  else if '0' ≤ c ∧ c ≤ '9' then some (c.toNat - 48 + 52)
  else if c = '+' then some 62
  else if c = '/' then some 63
  else none

/-- Base64-encode a byte sequence, three bytes at a time, with `=` padding. -/
def b64encBytes : List Nat → Str
  | [] => []
  | [a] => [b64chr (a / 4), b64chr (a % 4 * 16), '=', '=']
  | [a, b] => [b64chr (a / 4), b64chr (a % 4 * 16 + b / 16), b64chr (b % 16 * 4), '=']
  | a :: b :: c :: rest =>
      b64chr (a / 4) :: b64chr (a % 4 * 16 + b / 16) :: b64chr (b % 16 * 4 + c / 64)
        :: b64chr (c % 64) :: b64encBytes rest

/-- `base64.encodestring(v).replace('\n', '')` as used in `_unparse_attr`. -/
def b64encode (v : Str) : Str := b64encBytes (v.map Char.toNat)

/-- Bytes `a2b_base64` does not skip: alphabet characters and `=`. -/
def b64keep (c : Char) : Bool := (b64val c).isSome || c = '='

/-- Decode a cleaned base64 character stream, four characters at a time;
    `=` padding ends the data (as `a2b_base64` behaves on well-formed input). -/
def b64decQuads : List Char → List Nat
  | a :: b :: c :: d :: rest =>
    let s1 := (b64val a).getD 0
    let s2 := (b64val b).getD 0
    let s3 := (b64val c).getD 0
    let s4 := (b64val d).getD 0
    if c = '=' then [s1 * 4 + s2 / 16]
    else if d = '=' then [s1 * 4 + s2 / 16, s2 % 16 * 16 + s3 / 4]
    else (s1 * 4 + s2 / 16) :: (s2 % 16 * 16 + s3 / 4) :: (s3 % 4 * 64 + s4) :: b64decQuads rest
  | _ => []

/-- `base64.decodestring(s)` as used in `_parse_attr`. -/
def b64decode (s : Str) : Str := (b64decQuads (s.filter b64keep)).map Char.ofNat

/-! ### Line folding (`LDIFWriter._fold_line`) -/

/-- The `while pos < len(line)` loop of `_fold_line`: emit a space plus up to
    `cols - 1` characters plus the separator until the rest is consumed.
    The source does not terminate when `cols ≤ 1` and folding is needed;
    every caller in the claims uses `cols ≥ 2`, and we return `[]` on that
    dead branch to stay total. -/
def fold_cont (cols : Nat) (sep : Str) (line : Str) : Str :=
  if h : line = [] then []
  else if h2 : cols ≤ 1 then []
  else ' ' :: (line.take (cols - 1) ++ sep ++ fold_cont cols sep (line.drop (cols - 1)))
termination_by line.length
decreasing_by
  simp only [List.length_drop]
  have : 0 < line.length := List.length_pos.mpr h
  omega

/-- `LDIFWriter._fold_line(line)`: the byte sequence written to the output
    file (the line as-is if it fits in `cols` columns, otherwise the first
    `cols` characters then continuation lines). -/
def fold_line (cols : Nat) (sep : Str) (line : Str) : Str :=
  if line.length ≤ cols then line ++ sep
  else line.take cols ++ sep ++ fold_cont cols sep (line.drop cols)

/-- `LDIFWriter._unparse_attr(attr_type, attr_value)`: the bytes written. -/
def unparse_attr (base64_attrs : List Str) (cols : Nat) (sep : Str) (t v : Str) : Str :=
  if needs_base64_encoding base64_attrs t v then
    fold_line cols sep (t ++ (':' :: ':' :: ' ' :: b64encode v))
  else
    fold_line cols sep (t ++ (':' :: ' ' :: v))

/-! ### Entries and change records -/

/-- An LDAP entry: a Python dict from attribute type to list of values.
    We model the dict as an association list with pairwise-distinct keys in
    insertion order; dict equality is then list equality for a fixed key
    order. -/
abbrev Entry := List (Str × List Str)

/-- `entry[t]` on the association-list model. -/
def entryGet (e : Entry) (t : Str) : List Str :=
  match e with
  | [] => []
  | (k, vs) :: rest => if k = t then vs else entryGet rest t

/-- `entry[t].append(v)` / `entry[t] = [v]` as in `LDIFParser.parse`. -/
def entryInsert (e : Entry) (t v : Str) : Entry :=
  match e with
  | [] => [(t, [v])]
  | (k, vs) :: rest => if k = t then (k, vs ++ [v]) :: rest else (k, vs) :: entryInsert rest t v

def concatMap {α β : Type} (f : α → List β) : List α → List β
  | [] => []
  | x :: xs => f x ++ concatMap f xs

/-- Python 2 byte-string `<=` (lexicographic on byte values). -/
def strLe (a b : Str) : Bool :=
  match a, b with
  | [], _ => true
  | _ :: _, [] => false
  | x :: xs, y :: ys => x.toNat < y.toNat || (x = y && strLe xs ys)

/-- Python 2 byte-string `<` (strict lexicographic on byte values). -/
def strLt (a b : Str) : Bool :=
  match a, b with
  | [], [] => false
  | [], _ :: _ => true
  | _ :: _, [] => false
  | x :: xs, y :: ys => x.toNat < y.toNat || (x = y && strLt xs ys)

def insertSorted (x : Str) : List Str → List Str
  | [] => [x]
  | y :: ys => if strLe x y then x :: y :: ys else y :: insertSorted x ys

/-- `sorted(keys)`: a stable ascending sort of byte strings. -/
def sortStrs (l : List Str) : List Str := l.foldr insertSorted []

/-- `LDIFWriter._unparse_entry_record(entry)`: for each attribute type in
    ascending order, each of its values in original order. -/
def unparse_entry_record (battrs : List Str) (cols : Nat) (sep : Str) (entry : Entry) : Str :=
  concatMap (fun t => concatMap (fun v => unparse_attr battrs cols sep t v) (entryGet entry t))
    (sortStrs (entry.map Prod.fst))

/-- One item of a modlist: a 2-tuple (type, values), a 3-tuple
    (op, type, values), or a tuple of any other length `n` (whose fields are
    irrelevant: unpacking it as a 2- or 3-tuple fails). -/
inductive ModItem where
  | pair (t : Str) (vs : List Str) : ModItem
  | triple (op : Nat) (t : Str) (vs : List Str) : ModItem
  | other (n : Nat) : ModItem
deriving DecidableEq

/-- `len(mod)` of a modlist item. -/
def ModItem.len : ModItem → Nat
  | .pair _ _ => 2
  | .triple _ _ _ => 3
  | .other n => n

/-- Errors raised on the writer side.  `emptyModlist` is the `IndexError` of
    `modlist[0]` on an empty list; `wrongLength` the explicit
    `ValueError("modlist item of wrong length")`; `unpackError` the
    `ValueError` of unpacking a tuple of the wrong arity; `keyError` the
    `KeyError` of `MOD_OP_STR[mod_op]`. -/
inductive WErr where
  | emptyModlist | wrongLength | unpackError | keyError
deriving DecidableEq

/-- The module-level `MOD_OP_STR` dict; `none` models a `KeyError`. -/
def MOD_OP_STR : Nat → Option Str
  | 0 => some (toStr "add")
  | 1 => some (toStr "delete")
  | 2 => some (toStr "replace")
  | _ => none

/-- The `for mod in modlist` loop of `_unparse_change_record`, with `mod_len`
    fixed from the first item.  Returns the bytes written before any error
    together with the error: a raise mid-loop leaves earlier writes in the
    output stream. -/
def unparse_mods (battrs : List Str) (cols : Nat) (sep : Str) (mod_len : Nat) :
    List ModItem → Str × Option WErr
  | [] => ([], none)
  | m :: rest =>
    if mod_len = 2 then
      match m with
      | .pair t vs =>
        (concatMap (fun v => unparse_attr battrs cols sep t v) vs
          ++ (unparse_mods battrs cols sep mod_len rest).1,
         (unparse_mods battrs cols sep mod_len rest).2)
      | _ => ([], some .unpackError)
    else if mod_len = 3 then
      match m with
      | .triple op t vs =>
        match MOD_OP_STR op with
        | none => ([], some .keyError)
        | some ops =>
          (unparse_attr battrs cols sep ops t
            ++ concatMap (fun v => unparse_attr battrs cols sep t v) vs
            ++ ('-' :: sep) ++ (unparse_mods battrs cols sep mod_len rest).1,
           (unparse_mods battrs cols sep mod_len rest).2)
      | _ => ([], some .unpackError)
    else ([], some .wrongLength)

/-- `LDIFWriter._unparse_change_record(modlist)`: bytes written and error.
    The changetype is decided by the arity of the first item and its line is
    written before the loop. -/
def unparse_change_record (battrs : List Str) (cols : Nat) (sep : Str)
    (modlist : List ModItem) : Str × Option WErr :=
  match modlist with
  | [] => ([], some .emptyModlist)
  | m :: _ =>
    if m.len = 2 then
      (unparse_attr battrs cols sep (toStr "changetype") (toStr "add")
        ++ (unparse_mods battrs cols sep 2 modlist).1,
       (unparse_mods battrs cols sep 2 modlist).2)
    else if m.len = 3 then
      (unparse_attr battrs cols sep (toStr "changetype") (toStr "modify")
        ++ (unparse_mods battrs cols sep 3 modlist).1,
       (unparse_mods battrs cols sep 3 modlist).2)
    else ([], some .wrongLength)

/-- The `record` argument of `LDIFWriter.unparse`: a dict (entry) or a list
    (modlist). -/
inductive PyRecord where
  | entry (e : Entry) : PyRecord
  | modlist (l : List ModItem) : PyRecord

/-- `LDIFWriter.unparse(dn, record)`: returns the bytes committed to the
    output stream, the error if one was raised, and whether
    `records_written` was incremented.  The `dn` line is written first; the
    trailing blank line and the counter increment only happen when no error
    was raised. -/
def unparse (battrs : List Str) (cols : Nat) (sep : Str) (dn : Str) (r : PyRecord) :
    Str × Option WErr × Bool :=
  let o0 := unparse_attr battrs cols sep (toStr "dn") dn
  match r with
  | .entry e => (o0 ++ unparse_entry_record battrs cols sep e ++ sep, none, true)
  | .modlist l =>
    match (unparse_change_record battrs cols sep l).2 with
    | some e => (o0 ++ (unparse_change_record battrs cols sep l).1, some e, false)
    | none => (o0 ++ (unparse_change_record battrs cols sep l).1 ++ sep, none, true)

/-! ## Parser side (`LDIFParser`)

The input file is the remaining byte stream.  `readline` splits off one
physical line (up to and including a newline, or everything at end of file);
the parser state carried through the loops is the pair
(`self._line`, remaining stream). -/

/-- `input_file.readline()`: the next physical line (including its `\n`, if
    any) and the rest of the stream; returns the empty string at EOF. -/
def readline : Str → Str × Str
  | [] => ([], [])
  | c :: cs =>
    if c = '\n' then (['\n'], cs)
    else
      match readline cs with
      | (l, r) => (c :: l, r)

/-- `LDIFParser._strip_line_sep(s)`: strip one trailing `\r\n`
    (`s[-2:] == '\r\n'`), else one trailing `\n` (`s[-1:] == '\n'`),
    but no other whitespace. -/
def strip_line_sep (s : Str) : Str :=
  if s.getLast? = some '\n' then
    if s.dropLast.getLast? = some '\r' then s.dropLast.dropLast else s.dropLast
  else s

/-- Python `str.isspace` characters, as stripped by `lstrip()`/`strip()`. -/
def pySpace (c : Char) : Bool :=
  c = ' ' || c = '\t' || c = '\n' || c = '\r' || c = '\x0b' || c = '\x0c'

/-- `s.lstrip()` -/
def pyLstrip (s : Str) : Str := s.dropWhile pySpace

/-- `s.strip()` -/
def pyStrip (s : Str) : Str := ((s.dropWhile pySpace).reverse.dropWhile pySpace).reverse

/-- `s.index(c)` (first occurrence), `none` when the `ValueError` is raised. -/
def strIndex (s : Str) (c : Char) : Option Nat :=
  match s with
  | [] => none
  | x :: xs => if x = c then some 0 else (strIndex xs c).map (· + 1)

/-- Characters allowed in a URL scheme by `urlparse` (letters, digits,
    `+`, `-`, `.`). -/
def schemeChar (c : Char) : Bool :=
  ('A' ≤ c && c ≤ 'Z') || ('a' ≤ c && c ≤ 'z') || ('0' ≤ c && c ≤ '9')
  || c = '+' || c = '-' || c = '.'

/-- `urlparse.urlparse(url)[0]` of the Python 2 standard library: the
    lowercased text before the first `:` when that text is non-empty and
    made of scheme characters, else the empty string. -/
def urlScheme (url : Str) : Str :=
  match strIndex url ':' with
  | some i => if 0 < i ∧ (url.take i).all schemeChar then lowerStr (url.take i) else []
  | none => []

/-- The body of `LDIFParser._parse_attr` after comment skipping: decode one
    unfolded logical line into `(attr_type, attr_value)`.  `none` models the
    `(None, None)` record terminator; `some (t, none)` models an attribute
    whose value stayed `None` because its URL scheme was not processed.
    `fetch` stands for `urllib.urlopen(url).read()`. -/
def decodeLogical (schemes : List Str) (fetch : Str → Str) (u : Str) :
    Option (Str × Option Str) :=
  if u = [] ∨ u = toStr "\n" ∨ u = toStr "\r\n" then none
  else
    match strIndex u ':' with
    | none => none
    | some pos =>
      let t := u.take pos
      let vspec := (u.drop pos).take 2
      if vspec = toStr "::" then some (t, some (b64decode (u.drop (pos + 2))))
      else if vspec = toStr ":<" then
        let url := pyStrip (u.drop (pos + 2))
        if schemes ≠ [] ∧ (list_dict schemes).contains (urlScheme url) then
          some (t, some (fetch url))
        else some (t, none)
      else if vspec = toStr ":\r\n" ∨ vspec = toStr "\n" then some (t, some [])
      else some (t, some (pyLstrip (u.drop (pos + 2))))

theorem readline_append (s : Str) : (readline s).1 ++ (readline s).2 = s := by
  induction s with
  | nil => rfl
  | cons c cs ih =>
    simp only [readline]
    split
    · simp_all
    · cases h : readline cs with
      | mk l r => simp_all

theorem readline_fst_nil {s : Str} : (readline s).1 = [] ↔ s = [] := by
  cases s with
  | nil => simp [readline]
  | cons c cs =>
    simp only [readline]
    constructor
    · intro h
      exfalso
      by_cases hc : c = '\n'
      · simp [hc] at h
      · simp only [if_neg hc] at h
        cases hr : readline cs with
        | mk l r => rw [hr] at h; simp at h
    · intro h
      exact absurd h (List.cons_ne_nil c cs)

theorem readline_snd_lt {s : Str} (h : s ≠ []) : (readline s).2.length < s.length := by
  have happ := congrArg List.length (readline_append s)
  rw [List.length_append] at happ
  have h1 : (readline s).1 ≠ [] := by
    intro hnil
    exact h (readline_fst_nil.mp hnil)
  have h2 : 0 < (readline s).1.length := List.length_pos.mpr h1
  omega

theorem readline_head (s : Str) : (readline s).1.head? = s.head? := by
  cases s with
  | nil => rfl
  | cons c cs =>
    simp only [readline]
    split
    · simp_all
    · cases h : readline cs with
      | mk l r => simp

theorem strip_line_sep_length (s : Str) : (strip_line_sep s).length ≤ s.length := by
  unfold strip_line_sep
  split
  · split
    · have h1 := List.length_dropLast s.dropLast
      have h2 := List.length_dropLast s
      omega
    · have h2 := List.length_dropLast s
      omega
  · exact le_refl _

/-- The continuation-absorbing loop of `LDIFParser._unfold_line`: keep
    appending stripped continuation lines (leading space dropped) while the
    next physical line starts with a space. -/
def unfold_aux (acc : Str) (input : Str) : Str × Str × Str :=
  if hl : (readline input).1 ≠ [] ∧ (readline input).1.head? = some ' ' then
    unfold_aux (acc ++ strip_line_sep (readline input).1.tail) (readline input).2
  else (acc, (readline input).1, (readline input).2)
termination_by input.length
decreasing_by
  exact readline_snd_lt (fun hnil => hl.1 (by rw [hnil]; rfl))

/-- `LDIFParser._unfold_line()`: strips the current `self._line`, absorbs
    continuation lines, and returns (logical line, new `self._line`,
    remaining stream). -/
def unfold_line (line input : Str) : Str × Str × Str :=
  unfold_aux (strip_line_sep line) input

theorem unfold_aux_le (acc input : Str) :
    (unfold_aux acc input).2.1.length + (unfold_aux acc input).2.2.length ≤ input.length := by
  induction acc, input using unfold_aux.induct with
  | case1 acc input hl ih =>
    rw [unfold_aux, dif_pos hl]
    have hin : input ≠ [] := fun hnil => hl.1 (by rw [hnil]; rfl)
    have hlt := readline_snd_lt hin
    omega
  | case2 acc input hl =>
    rw [unfold_aux, dif_neg hl]
    show (readline input).1.length + (readline input).2.length ≤ input.length
    have happ := congrArg List.length (readline_append input)
    rw [List.length_append] at happ
    omega

theorem unfold_aux_fst_eq_of_stop (acc input : Str)
    (h : ¬((readline input).1 ≠ [] ∧ (readline input).1.head? = some ' ')) :
    unfold_aux acc input = (acc, (readline input).1, (readline input).2) := by
  rw [unfold_aux, dif_neg h]

theorem unfold_aux_fst_nil_lt (input : Str)
    (h : (unfold_aux [] input).1 ≠ []) :
    (unfold_aux [] input).2.1.length + (unfold_aux [] input).2.2.length < input.length := by
  by_cases hl : (readline input).1 ≠ [] ∧ (readline input).1.head? = some ' '
  · rw [unfold_aux, dif_pos hl]
    have hin : input ≠ [] := fun hnil => hl.1 (by rw [hnil]; rfl)
    have hlt := readline_snd_lt hin
    have hle := unfold_aux_le ([] ++ strip_line_sep (readline input).1.tail) (readline input).2
    omega
  · rw [unfold_aux_fst_eq_of_stop [] input hl] at h
    simp at h

/-- `LDIFParser._parse_attr()`: unfold a logical line, skip comment lines,
    then decode.  Returns the decoded pair and the new parser state. -/
def parse_attr (schemes : List Str) (fetch : Str → Str) (line input : Str) :
    Option (Str × Option Str) × Str × Str :=
  if hcm : (unfold_line line input).1.head? = some '#' then
    parse_attr schemes fetch (unfold_line line input).2.1 (unfold_line line input).2.2
  else
    (decodeLogical schemes fetch (unfold_line line input).1,
      (unfold_line line input).2.1, (unfold_line line input).2.2)
termination_by input.length + line.length
decreasing_by
  by_cases hline : line = []
  · subst hline
    have hne : (unfold_line [] input).1 ≠ [] := by
      intro hnil
      rw [hnil] at hcm
      simp at hcm
    have hsl : strip_line_sep [] = [] := rfl
    rw [unfold_line, hsl] at hne ⊢
    have := unfold_aux_fst_nil_lt input hne
    simp only [List.length_nil]
    omega
  · have hle := unfold_aux_le (strip_line_sep line) input
    rw [unfold_line]
    have : 0 < line.length := List.length_pos.mpr hline
    omega

theorem unfold_line_le (line input : Str) :
    (unfold_line line input).2.1.length + (unfold_line line input).2.2.length ≤ input.length :=
  unfold_aux_le (strip_line_sep line) input

theorem parse_attr_le (schemes : List Str) (fetch : Str → Str) (line input : Str) :
    (parse_attr schemes fetch line input).2.1.length
      + (parse_attr schemes fetch line input).2.2.length ≤ input.length + line.length := by
  induction line, input using parse_attr.induct schemes fetch with
  | case1 line input hcm ih =>
    rw [parse_attr, dif_pos hcm]
    have h1 := unfold_line_le line input
    omega
  | case2 line input hcm =>
    rw [parse_attr, dif_neg hcm]
    have h1 := unfold_line_le line input
    simp only
    omega

theorem parse_attr_lt (schemes : List Str) (fetch : Str → Str) (line input : Str)
    (h : (parse_attr schemes fetch line input).1 ≠ none ∨ line ≠ []) :
    (parse_attr schemes fetch line input).2.1.length
      + (parse_attr schemes fetch line input).2.2.length < input.length + line.length := by
  have hstrict : ∀ l i : Str, l = [] → (unfold_line l i).1 ≠ [] →
      (unfold_line l i).2.1.length + (unfold_line l i).2.2.length < i.length := by
    intro l i hl hne
    subst hl
    have hsl : strip_line_sep [] = [] := rfl
    rw [unfold_line, hsl] at hne ⊢
    exact unfold_aux_fst_nil_lt i hne
  induction line, input using parse_attr.induct schemes fetch with
  | case1 line input hcm ih =>
    rw [parse_attr, dif_pos hcm] at h ⊢
    by_cases hline : line = []
    · have hne : (unfold_line line input).1 ≠ [] := by
        intro hnil
        rw [hnil] at hcm
        simp at hcm
      have h2 := hstrict line input hline hne
      have h3 := parse_attr_le schemes fetch
        (unfold_line line input).2.1 (unfold_line line input).2.2
      subst hline
      simp only [List.length_nil] at *
      omega
    · have h1 := unfold_line_le line input
      have h3 := parse_attr_le schemes fetch
        (unfold_line line input).2.1 (unfold_line line input).2.2
      have : 0 < line.length := List.length_pos.mpr hline
      omega
  | case2 line input hcm =>
    rw [parse_attr, dif_neg hcm] at h ⊢
    simp only at h ⊢
    by_cases hline : line = []
    · rcases h with h | h
      · have hne : (unfold_line line input).1 ≠ [] := by
          intro hnil
          rw [hnil] at h
          simp [decodeLogical] at h
        have h2 := hstrict line input hline hne
        subst hline
        simp only [List.length_nil] at *
        omega
      · exact absurd hline h
    · have h1 := unfold_line_le line input
      have : 0 < line.length := List.length_pos.mpr hline
      omega

/-! ### The record state machine (`LDIFParser.parse`) -/

/-- The `ValueError`s raised by `LDIFParser.parse`, as distinct kinds. -/
inductive PErr where
  /-- "Two lines starting with dn: in one record." -/
  | duplicateDn : PErr
  /-- "No valid string-representation of distinguished name %s." -/
  | invalidDn (v : Str) : PErr
  /-- "Read changetype: before getting valid dn: line." -/
  | missingDn : PErr
  /-- "Two lines starting with changetype: in one record." -/
  | duplicateChangetype : PErr
  /-- "changetype value %s is invalid." -/
  | invalidChangetype (v : Str) : PErr
deriving DecidableEq, Repr

/-- The module-level `CHANGE_TYPES` list (keys of `valid_changetype_dict`). -/
def CHANGE_TYPES : List Str :=
  [toStr "add", toStr "delete", toStr "modify", toStr "modrdn"]

/-- One iteration of the inner `while` of `LDIFParser.parse`, acting on one
    decoded `(attr_type, attr_value)` pair with `attr_value` non-`None`:
    update `(dn, changetype, entry)` or raise. -/
def parse_step (ignored : List Str) (dn ct : Option Str) (entry : Entry) (t v : Str) :
    Except PErr (Option Str × Option Str × Entry) :=
  if t = toStr "dn" then
    if dn.isSome then .error .duplicateDn
    else if ¬ is_dn v then .error (.invalidDn v)
    else .ok (some v, ct, entry)
  else if t = toStr "version" ∧ dn = none then .ok (dn, ct, entry)
  else if t = toStr "changetype" then
    if dn = none then .error .missingDn
    else if ct.isSome then .error .duplicateChangetype
    else if ¬ CHANGE_TYPES.contains v then .error (.invalidChangetype v)
    else .ok (dn, some v, entry)
  else if (list_dict ignored).contains (lowerStr t) then .ok (dn, ct, entry)
  else .ok (dn, ct, entryInsert entry t v)

/-- Result of the inner record loop: the error if one was raised, the
    record's `dn` and `entry`, and the parser state (`self._line`, remaining
    stream) where the loop stopped. -/
structure InnerOut where
  err : Option PErr
  dn : Option Str
  entry : Entry
  line : Str
  input : Str
deriving DecidableEq, Repr

/-- The inner `while attr_type is not None and attr_value is not None` loop
    of `LDIFParser.parse` for one record. -/
def parse_inner (ign sch : List Str) (fetch : Str → Str)
    (dn ct : Option Str) (entry : Entry) (line input : Str) : InnerOut :=
  match hr : (parse_attr sch fetch line input).1 with
  | some (t, some v) =>
    match parse_step ign dn ct entry t v with
    | .error e =>
      ⟨some e, dn, entry, (parse_attr sch fetch line input).2.1,
        (parse_attr sch fetch line input).2.2⟩
    | .ok (dn2, ct2, e2) =>
      parse_inner ign sch fetch dn2 ct2 e2 (parse_attr sch fetch line input).2.1
        (parse_attr sch fetch line input).2.2
  | some (_, none) =>
    ⟨none, dn, entry, (parse_attr sch fetch line input).2.1,
      (parse_attr sch fetch line input).2.2⟩
  | none =>
    ⟨none, dn, entry, (parse_attr sch fetch line input).2.1,
      (parse_attr sch fetch line input).2.2⟩
termination_by input.length + line.length
decreasing_by
  have := parse_attr_lt sch fetch line input (.inl (by rw [hr]; simp))
  omega

/-- Unfolding equation of `parse_inner` when the decoded pair is a real
    attribute (both components non-`None`). -/
theorem parse_inner_step (ign sch : List Str) (fetch : Str → Str)
    (dn ct : Option Str) (entry : Entry) (line input t v : Str)
    (h : (parse_attr sch fetch line input).1 = some (t, some v)) :
    parse_inner ign sch fetch dn ct entry line input =
      match parse_step ign dn ct entry t v with
      | .error e => ⟨some e, dn, entry, (parse_attr sch fetch line input).2.1,
          (parse_attr sch fetch line input).2.2⟩
      | .ok (dn2, ct2, e2) => parse_inner ign sch fetch dn2 ct2 e2
          (parse_attr sch fetch line input).2.1 (parse_attr sch fetch line input).2.2 := by
  rw [parse_inner]
  split
  · rename_i t2 v2 hr
    rw [h] at hr
    injection hr with hr2
    injection hr2 with ha hb
    subst ha
    injection hb with hb2
    subst hb2
    rfl
  · rename_i t2 hr
    rw [h] at hr
    injection hr with hr2
    injection hr2 with ha hb
    cases hb
  · rename_i hr
    rw [h] at hr
    cases hr

/-- Unfolding equation of `parse_inner` at a `(None, None)` terminator. -/
theorem parse_inner_done_none (ign sch : List Str) (fetch : Str → Str)
    (dn ct : Option Str) (entry : Entry) (line input : Str)
    (h : (parse_attr sch fetch line input).1 = none) :
    parse_inner ign sch fetch dn ct entry line input =
      ⟨none, dn, entry, (parse_attr sch fetch line input).2.1,
        (parse_attr sch fetch line input).2.2⟩ := by
  rw [parse_inner]
  split <;>
    first
      | rfl
      | ((rename_i hr; rw [h] at hr) <;>
          first
            | rfl
            | cases hr
            | (injection hr with hr2
               injection hr2 with ha hb
               first
                 | cases hb
                 | cases ha
                 | (subst ha; rfl)))

/-- Unfolding equation of `parse_inner` at a decoded attribute whose value
    stayed `None` (dropped URL): the inner loop also stops there. -/
theorem parse_inner_done_url (ign sch : List Str) (fetch : Str → Str)
    (dn ct : Option Str) (entry : Entry) (line input t : Str)
    (h : (parse_attr sch fetch line input).1 = some (t, none)) :
    parse_inner ign sch fetch dn ct entry line input =
      ⟨none, dn, entry, (parse_attr sch fetch line input).2.1,
        (parse_attr sch fetch line input).2.2⟩ := by
  rw [parse_inner]
  split <;>
    first
      | rfl
      | ((rename_i hr; rw [h] at hr) <;>
          first
            | rfl
            | cases hr
            | (injection hr with hr2
               injection hr2 with ha hb
               first
                 | cases hb
                 | cases ha
                 | (subst ha; rfl)))

theorem parse_inner_le (ign sch : List Str) (fetch : Str → Str)
    (dn ct : Option Str) (entry : Entry) (line input : Str) :
    (parse_inner ign sch fetch dn ct entry line input).line.length
      + (parse_inner ign sch fetch dn ct entry line input).input.length
      ≤ input.length + line.length := by
  induction dn, ct, entry, line, input using parse_inner.induct ign sch fetch with
  | case1 dn ct entry line input t v hr e hstep =>
    rw [parse_inner_step ign sch fetch dn ct entry line input t v hr, hstep]
    have h1 := parse_attr_le sch fetch line input
    show (parse_attr sch fetch line input).2.1.length
      + (parse_attr sch fetch line input).2.2.length ≤ input.length + line.length
    omega
  | case2 dn ct entry line input t v hr dn2 ct2 e2 hstep ih =>
    rw [parse_inner_step ign sch fetch dn ct entry line input t v hr, hstep]
    have h1 := parse_attr_le sch fetch line input
    show (parse_inner ign sch fetch dn2 ct2 e2 (parse_attr sch fetch line input).2.1
        (parse_attr sch fetch line input).2.2).line.length
      + (parse_inner ign sch fetch dn2 ct2 e2 (parse_attr sch fetch line input).2.1
        (parse_attr sch fetch line input).2.2).input.length ≤ input.length + line.length
    omega
  | case3 dn ct entry line input t hr =>
    rw [parse_inner_done_url ign sch fetch dn ct entry line input t hr]
    have h1 := parse_attr_le sch fetch line input
    show (parse_attr sch fetch line input).2.1.length
      + (parse_attr sch fetch line input).2.2.length ≤ input.length + line.length
    omega
  | case4 dn ct entry line input hr =>
    rw [parse_inner_done_none ign sch fetch dn ct entry line input hr]
    have h1 := parse_attr_le sch fetch line input
    show (parse_attr sch fetch line input).2.1.length
      + (parse_attr sch fetch line input).2.2.length ≤ input.length + line.length
    omega

theorem parse_inner_lt (ign sch : List Str) (fetch : Str → Str)
    (dn ct : Option Str) (entry : Entry) (line input : Str) (hline : line ≠ []) :
    (parse_inner ign sch fetch dn ct entry line input).line.length
      + (parse_inner ign sch fetch dn ct entry line input).input.length
      < input.length + line.length := by
  cases hr : (parse_attr sch fetch line input).1 with
  | none =>
    rw [parse_inner_done_none ign sch fetch dn ct entry line input hr]
    have h1 := parse_attr_lt sch fetch line input (.inr hline)
    show (parse_attr sch fetch line input).2.1.length
      + (parse_attr sch fetch line input).2.2.length < input.length + line.length
    omega
  | some p =>
    cases p with
    | mk t ov =>
      cases ov with
      | none =>
        rw [parse_inner_done_url ign sch fetch dn ct entry line input t hr]
        have h1 := parse_attr_lt sch fetch line input (.inr hline)
        show (parse_attr sch fetch line input).2.1.length
          + (parse_attr sch fetch line input).2.2.length < input.length + line.length
        omega
      | some v =>
        rw [parse_inner_step ign sch fetch dn ct entry line input t v hr]
        have h1 := parse_attr_lt sch fetch line input (.inr hline)
        have h2 := parse_inner_le ign sch fetch dn ct entry line input
        cases hstep : parse_step ign dn ct entry t v with
        | error e =>
          show (parse_attr sch fetch line input).2.1.length
            + (parse_attr sch fetch line input).2.2.length < input.length + line.length
          omega
        | ok s =>
          obtain ⟨dn2, ct2, e2⟩ := s
          have h3 := parse_inner_le ign sch fetch dn2 ct2 e2
            (parse_attr sch fetch line input).2.1 (parse_attr sch fetch line input).2.2
          show (parse_inner ign sch fetch dn2 ct2 e2 (parse_attr sch fetch line input).2.1
              (parse_attr sch fetch line input).2.2).line.length
            + (parse_inner ign sch fetch dn2 ct2 e2 (parse_attr sch fetch line input).2.1
              (parse_attr sch fetch line input).2.2).input.length < input.length + line.length
          omega

/-- The outcome of `LDIFParser.parse` on a whole stream: the list of records
    handed to `handle` in order, the final `records_read`, the error if one
    was raised, and the final parser state (`self._line`, unread stream). -/
structure ParseResult where
  records : List (Option Str × Entry)
  records_read : Nat
  err : Option PErr
  line : Str
  input : Str
deriving DecidableEq, Repr

/-- The outer `while self._line and (not max_entries or read < max_entries)`
    loop of `LDIFParser.parse`. -/
def parse_loop (ign sch : List Str) (maxE : Nat) (fetch : Str → Str)
    (acc : List (Option Str × Entry)) (read : Nat) (line input : Str) : ParseResult :=
  if hstop : line = [] ∨ (maxE ≠ 0 ∧ ¬ read < maxE) then ⟨acc, read, none, line, input⟩
  else
    match (parse_inner ign sch fetch none none [] line input).err with
    | some e =>
      ⟨acc, read, some e, (parse_inner ign sch fetch none none [] line input).line,
        (parse_inner ign sch fetch none none [] line input).input⟩
    | none =>
      if (parse_inner ign sch fetch none none [] line input).entry = [] then
        parse_loop ign sch maxE fetch acc read
          (parse_inner ign sch fetch none none [] line input).line
          (parse_inner ign sch fetch none none [] line input).input
      else
        parse_loop ign sch maxE fetch
          (acc ++ [((parse_inner ign sch fetch none none [] line input).dn,
            (parse_inner ign sch fetch none none [] line input).entry)])
          (read + 1)
          (parse_inner ign sch fetch none none [] line input).line
          (parse_inner ign sch fetch none none [] line input).input
termination_by input.length + line.length
decreasing_by
  all_goals
    have hline : line ≠ [] := fun hnil => hstop (.inl hnil)
    have := parse_inner_lt ign sch fetch none none [] line input hline
    omega

/-- `LDIFParser.parse()`: prime `self._line` with the first physical line,
    then run the record loop. -/
def parse (ign sch : List Str) (maxE : Nat) (fetch : Str → Str) (stream : Str) : ParseResult :=
  parse_loop ign sch maxE fetch [] 0 (readline stream).1 (readline stream).2

/-! ### Stream lemmas -/

theorem getLast?_mem {l : Str} {a : Char} (h : l.getLast? = some a) : a ∈ l := by
  induction l using List.reverseRecOn with
  | nil => cases h
  | append_singleton xs x ih =>
    rw [List.getLast?_concat] at h
    injection h with h2
    subst h2
    exact List.mem_append_right xs (List.mem_singleton.mpr rfl)

theorem readline_of_append (u rest : Str) (h : '\n' ∉ u) :
    readline (u ++ '\n' :: rest) = (u ++ ['\n'], rest) := by
  induction u with
  | nil => simp [readline]
  | cons c cs ih =>
    have hc : c ≠ '\n' := fun hc => h (hc ▸ List.mem_cons_self c cs)
    have hcs : '\n' ∉ cs := fun hm => h (List.mem_cons_of_mem c hm)
    simp only [List.cons_append, readline, if_neg hc, List.append_eq, ih hcs]

theorem strip_concat (u : Str) (h : u.getLast? ≠ some '\r') :
    strip_line_sep (u ++ ['\n']) = u := by
  unfold strip_line_sep
  rw [List.getLast?_concat, List.dropLast_concat]
  simp [h]

theorem unfold_aux_stop (acc rest : Str) (hrest : rest.head? ≠ some ' ') :
    unfold_aux acc rest = (acc, (readline rest).1, (readline rest).2) := by
  apply unfold_aux_fst_eq_of_stop
  intro hl
  rw [readline_head] at hl
  exact hrest hl.2

theorem unfold_line_single (u rest : Str) (hCR : u.getLast? ≠ some '\r')
    (hrest : rest.head? ≠ some ' ') :
    unfold_line (u ++ ['\n']) rest = (u, (readline rest).1, (readline rest).2) := by
  rw [unfold_line, strip_concat u hCR]
  exact unfold_aux_stop u rest hrest

theorem parse_attr_single (sch : List Str) (fetch : Str → Str) (u rest : Str)
    (hCR : u.getLast? ≠ some '\r') (hcm : u.head? ≠ some '#')
    (hrest : rest.head? ≠ some ' ') :
    parse_attr sch fetch (u ++ ['\n']) rest =
      (decodeLogical sch fetch u, (readline rest).1, (readline rest).2) := by
  have hu := unfold_line_single u rest hCR hrest
  rw [parse_attr, hu]
  rw [dif_neg hcm]

theorem parse_attr_cons (sch : List Str) (fetch : Str → Str) (u rest : Str)
    (hLF : '\n' ∉ u) (hCR : '\r' ∉ u) (hcm : u.head? ≠ some '#')
    (hrest : rest.head? ≠ some ' ') :
    parse_attr sch fetch (readline (u ++ '\n' :: rest)).1 (readline (u ++ '\n' :: rest)).2 =
      (decodeLogical sch fetch u, (readline rest).1, (readline rest).2) := by
  rw [readline_of_append u rest hLF]
  exact parse_attr_single sch fetch u rest
    (fun hc => hCR (getLast?_mem hc)) hcm hrest

/-! ### A reference runner over logical lines

To evaluate the parser on concrete streams without unrolling the
well-founded recursions by hand, we relate `parse` on a stream assembled
from newline-terminated lines to the structurally recursive runners below,
which `decide` can evaluate. -/

/-- Assemble a byte stream from logical lines (each gets a final `\n`). -/
def linesToStream : List Str → Str
  | [] => []
  | u :: rest => u ++ '\n' :: linesToStream rest

/-- Well-formedness of a logical line for the runner: no embedded line
    separators, not a comment, no leading space (which would be absorbed as
    a continuation of the previous line). -/
def LineOk (u : Str) : Prop :=
  '\n' ∉ u ∧ '\r' ∉ u ∧ u.head? ≠ some '#' ∧ u.head? ≠ some ' '

instance (u : Str) : Decidable (LineOk u) := by
  unfold LineOk
  infer_instance

/-- Reference version of the inner record loop on a list of logical lines:
    returns (error, dn, entry, remaining lines). -/
def innerRun (ign sch : List Str) (fetch : Str → Str) (dn ct : Option Str) (entry : Entry) :
    List Str → Option PErr × Option Str × Entry × List Str
  | [] => (none, dn, entry, [])
  | u :: rest =>
    match decodeLogical sch fetch u with
    | some (t, some v) =>
      match parse_step ign dn ct entry t v with
      | .error e => (some e, dn, entry, rest)
      | .ok (dn2, ct2, e2) => innerRun ign sch fetch dn2 ct2 e2 rest
    | _ => (none, dn, entry, rest)

theorem linesToStream_head (L : List Str) (hL : ∀ u ∈ L, u.head? ≠ some ' ') :
    (linesToStream L).head? ≠ some ' ' := by
  cases L with
  | nil => simp [linesToStream]
  | cons u rest =>
    cases hu : u with
    | nil => simp [linesToStream, hu]
    | cons c cs =>
      have := hL u (List.mem_cons_self u rest)
      rw [hu] at this
      simp only [linesToStream, hu, List.cons_append, List.head?_cons]
      intro hc
      injection hc with hc2
      subst hc2
      exact this rfl

theorem parse_inner_lines (ign sch : List Str) (fetch : Str → Str) (L : List Str)
    (hL : ∀ u ∈ L, LineOk u) :
    ∀ (dn ct : Option Str) (entry : Entry),
    parse_inner ign sch fetch dn ct entry
        (readline (linesToStream L)).1 (readline (linesToStream L)).2 =
      ⟨(innerRun ign sch fetch dn ct entry L).1,
       (innerRun ign sch fetch dn ct entry L).2.1,
       (innerRun ign sch fetch dn ct entry L).2.2.1,
       (readline (linesToStream (innerRun ign sch fetch dn ct entry L).2.2.2)).1,
       (readline (linesToStream (innerRun ign sch fetch dn ct entry L).2.2.2)).2⟩ := by
  induction L with
  | nil =>
    intro dn ct entry
    have h0 : unfold_line [] [] = ([], [], []) := by
      rw [unfold_line]
      rw [show strip_line_sep [] = [] from rfl]
      rw [unfold_aux_stop [] [] (by simp)]
      rfl
    have hpa : parse_attr sch fetch [] [] = (none, [], []) := by
      rw [parse_attr, h0]
      simp [decodeLogical]
    rw [show linesToStream [] = [] from rfl]
    rw [show readline [] = ([], []) from rfl]
    rw [parse_inner_done_none ign sch fetch dn ct entry [] [] (by rw [hpa])]
    rw [innerRun]
    rw [hpa]
    rfl
  | cons u rest ih =>
    intro dn ct entry
    have hu := hL u (List.mem_cons_self u rest)
    obtain ⟨hLF, hCR, hcm, hsp⟩ := hu
    have hrest : (linesToStream rest).head? ≠ some ' ' :=
      linesToStream_head rest (fun w hw => (hL w (List.mem_cons_of_mem u hw)).2.2.2)
    have hpa := parse_attr_cons sch fetch u (linesToStream rest) hLF hCR hcm hrest
    rw [show linesToStream (u :: rest) = u ++ '\n' :: linesToStream rest from rfl]
    have hrest2 : ∀ w ∈ rest, LineOk w := fun w hw => hL w (List.mem_cons_of_mem u hw)
    cases hdec : decodeLogical sch fetch u with
    | none =>
      rw [parse_inner_done_none ign sch fetch dn ct entry _ _ (by rw [hpa, hdec])]
      rw [innerRun, hdec]
      rw [hpa]
    | some p =>
      obtain ⟨t, ov⟩ := p
      cases ov with
      | none =>
        rw [parse_inner_done_url ign sch fetch dn ct entry _ _ t (by rw [hpa, hdec])]
        rw [innerRun, hdec]
        rw [hpa]
      | some v =>
        rw [parse_inner_step ign sch fetch dn ct entry _ _ t v (by rw [hpa, hdec])]
        cases hstep : parse_step ign dn ct entry t v with
        | error e =>
          rw [hpa]
          simp only [innerRun, hdec, hstep]
        | ok st =>
          obtain ⟨dn2, ct2, e2⟩ := st
          rw [hpa]
          simp only [innerRun, hdec, hstep]
          exact ih hrest2 dn2 ct2 e2

theorem innerRun_rest_mem (ign sch : List Str) (fetch : Str → Str) (P : Str → Prop) :
    ∀ (L : List Str) (dn ct : Option Str) (entry : Entry), (∀ u ∈ L, P u) →
      ∀ u ∈ (innerRun ign sch fetch dn ct entry L).2.2.2, P u := by
  intro L
  induction L with
  | nil =>
    intro dn ct entry h u hu
    simp [innerRun] at hu
  | cons a rest ih =>
    intro dn ct entry h u hu
    have hrest : ∀ w ∈ rest, P w := fun w hw => h w (List.mem_cons_of_mem a hw)
    cases hdec : decodeLogical sch fetch a with
    | none =>
      rw [innerRun, hdec] at hu
      exact hrest u hu
    | some p =>
      obtain ⟨t, ov⟩ := p
      cases ov with
      | none =>
        rw [innerRun, hdec] at hu
        exact hrest u hu
      | some v =>
        cases hstep : parse_step ign dn ct entry t v with
        | error e =>
          simp only [innerRun, hdec, hstep] at hu
          exact hrest u hu
        | ok st =>
          obtain ⟨d2, c2, e2⟩ := st
          simp only [innerRun, hdec, hstep] at hu
          exact ih d2 c2 e2 hrest u hu

theorem innerRun_rest_le (ign sch : List Str) (fetch : Str → Str) :
    ∀ (L : List Str) (dn ct : Option Str) (entry : Entry),
      (innerRun ign sch fetch dn ct entry L).2.2.2.length ≤ L.length := by
  intro L
  induction L with
  | nil =>
    intro dn ct entry
    simp [innerRun]
  | cons a rest ih =>
    intro dn ct entry
    cases hdec : decodeLogical sch fetch a with
    | none =>
      rw [innerRun, hdec]
      simp
    | some p =>
      obtain ⟨t, ov⟩ := p
      cases ov with
      | none =>
        rw [innerRun, hdec]
        simp
      | some v =>
        cases hstep : parse_step ign dn ct entry t v with
        | error e =>
          simp only [innerRun, hdec, hstep]
          simp
        | ok st =>
          obtain ⟨d2, c2, e2⟩ := st
          simp only [innerRun, hdec, hstep]
          have := ih d2 c2 e2
          simp only [List.length_cons]
          omega

theorem innerRun_rest_lt (ign sch : List Str) (fetch : Str → Str)
    (L : List Str) (dn ct : Option Str) (entry : Entry) (h : L ≠ []) :
    (innerRun ign sch fetch dn ct entry L).2.2.2.length < L.length := by
  cases L with
  | nil => exact absurd rfl h
  | cons a rest =>
    cases hdec : decodeLogical sch fetch a with
    | none =>
      rw [innerRun, hdec]
      simp
    | some p =>
      obtain ⟨t, ov⟩ := p
      cases ov with
      | none =>
        rw [innerRun, hdec]
        simp
      | some v =>
        cases hstep : parse_step ign dn ct entry t v with
        | error e =>
          simp only [innerRun, hdec, hstep]
          simp
        | ok st =>
          obtain ⟨d2, c2, e2⟩ := st
          simp only [innerRun, hdec, hstep]
          have := innerRun_rest_le ign sch fetch rest d2 c2 e2
          simp only [List.length_cons]
          omega

/-- Reference version of the outer record loop on a list of logical lines,
    with an explicit fuel argument (any fuel ≥ the number of lines gives the
    loop's true result): returns (dispatched records, records_read, error,
    remaining lines). -/
def loopRunF (ign sch : List Str) (maxE : Nat) (fetch : Str → Str) :
    Nat → List (Option Str × Entry) → Nat → List Str →
      List (Option Str × Entry) × Nat × Option PErr × List Str
  | 0, acc, read, L => (acc, read, none, L)
  | fuel + 1, acc, read, L =>
    if L = [] ∨ (maxE ≠ 0 ∧ ¬ read < maxE) then (acc, read, none, L)
    else if (innerRun ign sch fetch none none [] L).1 ≠ none then
      (acc, read, (innerRun ign sch fetch none none [] L).1,
        (innerRun ign sch fetch none none [] L).2.2.2)
    else if (innerRun ign sch fetch none none [] L).2.2.1 = [] then
      loopRunF ign sch maxE fetch fuel acc read (innerRun ign sch fetch none none [] L).2.2.2
    else
      loopRunF ign sch maxE fetch fuel
        (acc ++ [((innerRun ign sch fetch none none [] L).2.1,
          (innerRun ign sch fetch none none [] L).2.2.1)]) (read + 1)
        (innerRun ign sch fetch none none [] L).2.2.2

theorem linesToStream_eq_nil {L : List Str} : linesToStream L = [] ↔ L = [] := by
  cases L with
  | nil => simp [linesToStream]
  | cons u rest =>
    simp only [linesToStream]
    constructor
    · intro h
      have := congrArg List.length h
      simp at this
    · intro h
      cases h

theorem parse_loop_lines (ign sch : List Str) (maxE : Nat) (fetch : Str → Str) :
    ∀ (fuel : Nat) (L : List Str), L.length ≤ fuel → (∀ u ∈ L, LineOk u) →
    ∀ (acc : List (Option Str × Entry)) (read : Nat),
    parse_loop ign sch maxE fetch acc read
        (readline (linesToStream L)).1 (readline (linesToStream L)).2 =
      ⟨(loopRunF ign sch maxE fetch fuel acc read L).1,
       (loopRunF ign sch maxE fetch fuel acc read L).2.1,
       (loopRunF ign sch maxE fetch fuel acc read L).2.2.1,
       (readline (linesToStream (loopRunF ign sch maxE fetch fuel acc read L).2.2.2)).1,
       (readline (linesToStream (loopRunF ign sch maxE fetch fuel acc read L).2.2.2)).2⟩ := by
  intro fuel
  induction fuel with
  | zero =>
    intro L hlen hL acc read
    have hnil : L = [] := List.length_eq_zero.mp (Nat.le_zero.mp hlen)
    subst hnil
    rw [show linesToStream [] = [] from rfl]
    rw [parse_loop, dif_pos (.inl rfl), loopRunF]
    rfl
  | succ n ih =>
    intro L hlen hL acc read
    by_cases hstop : L = [] ∨ (maxE ≠ 0 ∧ ¬ read < maxE)
    · have hstop2 : (readline (linesToStream L)).1 = [] ∨ (maxE ≠ 0 ∧ ¬ read < maxE) := by
        rcases hstop with h | h
        · subst h
          exact .inl rfl
        · exact .inr h
      rw [parse_loop, dif_pos hstop2, loopRunF, if_pos hstop]
    · have hL0 : L ≠ [] := fun h => hstop (.inl h)
      have hstop2 : ¬ ((readline (linesToStream L)).1 = [] ∨ (maxE ≠ 0 ∧ ¬ read < maxE)) := by
        intro hc
        rcases hc with h | h
        · exact hL0 (linesToStream_eq_nil.mp (readline_fst_nil.mp h))
        · exact hstop (.inr h)
      have hpi := parse_inner_lines ign sch fetch L hL none none []
      have herr2 : (parse_inner ign sch fetch none none []
          (readline (linesToStream L)).1 (readline (linesToStream L)).2).err
          = (innerRun ign sch fetch none none [] L).1 := by rw [hpi]
      have hdn2 : (parse_inner ign sch fetch none none []
          (readline (linesToStream L)).1 (readline (linesToStream L)).2).dn
          = (innerRun ign sch fetch none none [] L).2.1 := by rw [hpi]
      have hent2 : (parse_inner ign sch fetch none none []
          (readline (linesToStream L)).1 (readline (linesToStream L)).2).entry
          = (innerRun ign sch fetch none none [] L).2.2.1 := by rw [hpi]
      have hline2 : (parse_inner ign sch fetch none none []
          (readline (linesToStream L)).1 (readline (linesToStream L)).2).line
          = (readline (linesToStream (innerRun ign sch fetch none none [] L).2.2.2)).1 := by
        rw [hpi]
      have hinput2 : (parse_inner ign sch fetch none none []
          (readline (linesToStream L)).1 (readline (linesToStream L)).2).input
          = (readline (linesToStream (innerRun ign sch fetch none none [] L).2.2.2)).2 := by
        rw [hpi]
      rw [parse_loop, dif_neg hstop2]
      rw [herr2, hent2, hdn2, hline2, hinput2]
      rw [loopRunF, if_neg hstop]
      have hLrest : ∀ u ∈ (innerRun ign sch fetch none none [] L).2.2.2, LineOk u :=
        innerRun_rest_mem ign sch fetch LineOk L none none [] hL
      have hlen2 : (innerRun ign sch fetch none none [] L).2.2.2.length < L.length :=
        innerRun_rest_lt ign sch fetch L none none [] hL0
      have hlen3 : (innerRun ign sch fetch none none [] L).2.2.2.length ≤ n := by omega
      cases herr : (innerRun ign sch fetch none none [] L).1 with
      | some e =>
        rw [if_pos (show (some e : Option PErr) ≠ none from by simp)]
      | none =>
        rw [if_neg (show ¬ ((none : Option PErr) ≠ none) from by simp)]
        by_cases hent : (innerRun ign sch fetch none none [] L).2.2.1 = []
        · simp only [if_pos hent, hent]
          show parse_loop ign sch maxE fetch acc read
              (readline (linesToStream (innerRun ign sch fetch none none [] L).2.2.2)).1
              (readline (linesToStream (innerRun ign sch fetch none none [] L).2.2.2)).2 = _
          exact ih _ hlen3 hLrest acc read
        · simp only [if_neg hent]
          show parse_loop ign sch maxE fetch
              (acc ++ [((innerRun ign sch fetch none none [] L).2.1,
                (innerRun ign sch fetch none none [] L).2.2.1)]) (read + 1)
              (readline (linesToStream (innerRun ign sch fetch none none [] L).2.2.2)).1
              (readline (linesToStream (innerRun ign sch fetch none none [] L).2.2.2)).2 = _
          exact ih _ hlen3 hLrest
            (acc ++ [((innerRun ign sch fetch none none [] L).2.1,
              (innerRun ign sch fetch none none [] L).2.2.1)]) (read + 1)

/-- `parse` on a stream assembled from well-formed logical lines equals the
    reference runner. -/
theorem parse_lines (ign sch : List Str) (maxE : Nat) (fetch : Str → Str)
    (L : List Str) (fuel : Nat) (hfuel : L.length ≤ fuel) (hL : ∀ u ∈ L, LineOk u) :
    parse ign sch maxE fetch (linesToStream L) =
      ⟨(loopRunF ign sch maxE fetch fuel [] 0 L).1,
       (loopRunF ign sch maxE fetch fuel [] 0 L).2.1,
       (loopRunF ign sch maxE fetch fuel [] 0 L).2.2.1,
       (readline (linesToStream (loopRunF ign sch maxE fetch fuel [] 0 L).2.2.2)).1,
       (readline (linesToStream (loopRunF ign sch maxE fetch fuel [] 0 L).2.2.2)).2⟩ := by
  rw [parse]
  exact parse_loop_lines ign sch maxE fetch fuel L hfuel hL [] 0

theorem strIndex_eq_none {u : Str} {c : Char} (h : c ∉ u) : strIndex u c = none := by
  induction u with
  | nil => rfl
  | cons x xs ih =>
    have hx : x ≠ c := fun hx => h (hx ▸ List.mem_cons_self x xs)
    have hxs : c ∉ xs := fun hm => h (List.mem_cons_of_mem x hm)
    simp [strIndex, if_neg hx, ih hxs]

theorem decodeLogical_no_colon (sch : List Str) (fetch : Str → Str) (u : Str)
    (h : ':' ∉ u) : decodeLogical sch fetch u = none := by
  unfold decodeLogical
  split
  · rfl
  · rw [strIndex_eq_none h]

/-! ## Claim theorems -/

/-- C1: on a record containing a `type:< url` line whose scheme is not
    processed (here: the allowed-scheme set is empty), the reference code
    does NOT merely drop that attribute and continue with the same record:
    the decoded `(type, None)` pair ends the inner loop, the partial record
    `{x: [1]}` is dispatched, and the following attribute line `y: 2` is
    collected into a separate record with no dn.  This theorem evaluates the
    code at the failing input of the claim. -/
theorem c1_url_scheme_drop_ends_record :
    parse [] [] 0 (fun _ => []) (toStr "dn: cn=a\nx: 1\nu:< http://h\ny: 2\n\n")
      = ⟨[(some (toStr "cn=a"), [(toStr "x", [toStr "1"])]),
          (none, [(toStr "y", [toStr "2"])])], 2, none, [], []⟩ := by
  have hs : toStr "dn: cn=a\nx: 1\nu:< http://h\ny: 2\n\n" =
      linesToStream [toStr "dn: cn=a", toStr "x: 1", toStr "u:< http://h", toStr "y: 2",
        toStr ""] := by decide
  rw [hs, parse_lines [] [] 0 (fun _ => []) _ 5 (by decide) (by decide)]
  decide

/-- C6: a second `dn:` line, a dn value failing the grammar validator, and a
    `changetype:` line with no dn yet / already set / invalid value each
    raise a distinct typed error; in every case no record is dispatched
    (`records = []`, `records_read = 0`) and parsing does not resume at the
    next record (the error is the final outcome of `parse`). -/
theorem c6_state_machine_errors :
    parse [] [] 0 (fun _ => []) (toStr "dn: cn=a\ndn: cn=b\n\n")
        = ⟨[], 0, some .duplicateDn, toStr "\n", []⟩
    ∧ parse [] [] 0 (fun _ => []) (toStr "dn: =bad\n\n")
        = ⟨[], 0, some (.invalidDn (toStr "=bad")), toStr "\n", []⟩
    ∧ parse [] [] 0 (fun _ => []) (toStr "changetype: add\n\n")
        = ⟨[], 0, some .missingDn, toStr "\n", []⟩
    ∧ parse [] [] 0 (fun _ => []) (toStr "dn: cn=a\nchangetype: add\nchangetype: add\nx: 1\n\n")
        = ⟨[], 0, some .duplicateChangetype, toStr "x: 1\n", toStr "\n"⟩
    ∧ parse [] [] 0 (fun _ => []) (toStr "dn: cn=a\nchangetype: bogus\n\n")
        = ⟨[], 0, some (.invalidChangetype (toStr "bogus")), toStr "\n", []⟩ := by
  refine ⟨?_, ?_, ?_, ?_, ?_⟩
  · have hs : toStr "dn: cn=a\ndn: cn=b\n\n" =
        linesToStream [toStr "dn: cn=a", toStr "dn: cn=b", toStr ""] := by decide
    rw [hs, parse_lines [] [] 0 (fun _ => []) _ 3 (by decide) (by decide)]
    decide
  · have hs : toStr "dn: =bad\n\n" = linesToStream [toStr "dn: =bad", toStr ""] := by decide
    rw [hs, parse_lines [] [] 0 (fun _ => []) _ 2 (by decide) (by decide)]
    decide
  · have hs : toStr "changetype: add\n\n" =
        linesToStream [toStr "changetype: add", toStr ""] := by decide
    rw [hs, parse_lines [] [] 0 (fun _ => []) _ 2 (by decide) (by decide)]
    decide
  · have hs : toStr "dn: cn=a\nchangetype: add\nchangetype: add\nx: 1\n\n" =
        linesToStream [toStr "dn: cn=a", toStr "changetype: add", toStr "changetype: add",
          toStr "x: 1", toStr ""] := by decide
    rw [hs, parse_lines [] [] 0 (fun _ => []) _ 5 (by decide) (by decide)]
    decide
  · have hs : toStr "dn: cn=a\nchangetype: bogus\n\n" =
        linesToStream [toStr "dn: cn=a", toStr "changetype: bogus", toStr ""] := by decide
    rw [hs, parse_lines [] [] 0 (fun _ => []) _ 3 (by decide) (by decide)]
    decide

/-- C8 (counterexample): with `max_entries = 1` on a stream of 3 records,
    the bytes left unread by the parser instance are NOT all the bytes after
    the first record: the stream `dn: cn=b\nb: 2\n...` remains, but the
    parser has already consumed its first physical line `dn: cn=b\n` as
    lookahead, so the unread input starts at `b: 2`. -/
theorem c8_remaining_bytes_read_ahead :
    (parse [] [] 1 (fun _ => [])
        (toStr "dn: cn=a\na: 1\n\ndn: cn=b\nb: 2\n\ndn: cn=c\nc: 3\n\n")).input
      ≠ toStr "dn: cn=b\nb: 2\n\ndn: cn=c\nc: 3\n\n" := by
  have hs : toStr "dn: cn=a\na: 1\n\ndn: cn=b\nb: 2\n\ndn: cn=c\nc: 3\n\n" =
      linesToStream [toStr "dn: cn=a", toStr "a: 1", toStr "", toStr "dn: cn=b", toStr "b: 2",
        toStr "", toStr "dn: cn=c", toStr "c: 3", toStr ""] := by decide
  rw [hs, parse_lines [] [] 1 (fun _ => []) _ 9 (by decide) (by decide)]
  decide

/-- C8 (amended): with `max_entries = 1` on a 3-record stream, `parse`
    dispatches exactly 1 record, `records_read` is exactly 1, the second
    record is not parsed, and the parser stops holding the first physical
    line of the second record as unprocessed lookahead in `self._line`,
    leaving the rest of the stream unread. -/
theorem c8_max_entries_stops_after_one :
    parse [] [] 1 (fun _ => [])
        (toStr "dn: cn=a\na: 1\n\ndn: cn=b\nb: 2\n\ndn: cn=c\nc: 3\n\n")
      = ⟨[(some (toStr "cn=a"), [(toStr "a", [toStr "1"])])], 1, none,
         toStr "dn: cn=b\n", toStr "b: 2\n\ndn: cn=c\nc: 3\n\n"⟩ := by
  have hs : toStr "dn: cn=a\na: 1\n\ndn: cn=b\nb: 2\n\ndn: cn=c\nc: 3\n\n" =
      linesToStream [toStr "dn: cn=a", toStr "a: 1", toStr "", toStr "dn: cn=b", toStr "b: 2",
        toStr "", toStr "dn: cn=c", toStr "c: 3", toStr ""] := by decide
  rw [hs, parse_lines [] [] 1 (fun _ => []) _ 9 (by decide) (by decide)]
  decide

/-- C9: a non-empty, non-comment logical line with no colon decodes to
    `(None, None)` (first conjunct, for every such line), so it ends the
    current record exactly like a blank line and raises no error: in the
    concrete stream, `badline` terminates the record `{x: [1]}`, which is
    dispatched, and parsing continues with a fresh record. -/
theorem c9_no_colon_is_record_terminator :
    (∀ (sch : List Str) (fetch : Str → Str) (u rest : Str),
      ':' ∉ u → u.head? ≠ some '#' → '\n' ∉ u → '\r' ∉ u → rest.head? ≠ some ' ' →
      parse_attr sch fetch (readline (u ++ '\n' :: rest)).1 (readline (u ++ '\n' :: rest)).2
        = (none, (readline rest).1, (readline rest).2))
    ∧ parse [] [] 0 (fun _ => []) (toStr "dn: cn=a\nx: 1\nbadline\ny: 2\n\n")
        = ⟨[(some (toStr "cn=a"), [(toStr "x", [toStr "1"])]),
            (none, [(toStr "y", [toStr "2"])])], 2, none, [], []⟩ := by
  constructor
  · intro sch fetch u rest hc hcm hLF hCR hrest
    rw [parse_attr_cons sch fetch u rest hLF hCR hcm hrest]
    rw [decodeLogical_no_colon sch fetch u hc]
  · have hs : toStr "dn: cn=a\nx: 1\nbadline\ny: 2\n\n" =
        linesToStream [toStr "dn: cn=a", toStr "x: 1", toStr "badline", toStr "y: 2",
          toStr ""] := by decide
    rw [hs, parse_lines [] [] 0 (fun _ => []) _ 5 (by decide) (by decide)]
    decide

/-- C9 witness: the universal part of `c9_no_colon_is_record_terminator`
    applied at the concrete malformed line `badline` with an empty rest. -/
theorem c9_no_colon_witness :
    parse_attr [] (fun _ => [])
        (readline (toStr "badline" ++ '\n' :: [])).1
        (readline (toStr "badline" ++ '\n' :: [])).2
      = (none, [], []) := by
  have h := c9_no_colon_is_record_terminator.1 [] (fun _ => []) (toStr "badline") []
    (by decide) (by decide) (by decide) (by decide) (by decide)
  simpa using h

/-- C10: the keyword dispatch on `dn`, `version` and `changetype` is
    case-sensitive (a `DN:` or `Changetype:` line neither sets the dn or
    changetype nor errors; it is appended to the entry under that exact
    key), while membership in the ignored-attribute set is tested
    case-insensitively (`fOO` is dropped when `Foo` is ignored).  The final
    conjunct shows a full parse: `DN: cn=x` yields a record with dn unset
    and an entry keyed by the exact string `DN`. -/
theorem c10_keyword_dispatch_case_sensitive :
    (∀ (dn ct : Option Str) (e : Entry) (v : Str),
      parse_step [] dn ct e (toStr "DN") v = .ok (dn, ct, entryInsert e (toStr "DN") v))
    ∧ (∀ (dn ct : Option Str) (e : Entry) (v : Str),
      parse_step [] dn ct e (toStr "Changetype") v
        = .ok (dn, ct, entryInsert e (toStr "Changetype") v))
    ∧ (∀ (dn ct : Option Str) (e : Entry) (v : Str),
      parse_step [toStr "Foo"] dn ct e (toStr "fOO") v = .ok (dn, ct, e))
    ∧ parse [] [] 0 (fun _ => []) (toStr "DN: cn=x\na: 1\n\n")
        = ⟨[(none, [(toStr "DN", [toStr "cn=x"]), (toStr "a", [toStr "1"])])],
           1, none, [], []⟩ := by
  refine ⟨?_, ?_, ?_, ?_⟩
  · intro dn ct e v
    unfold parse_step
    rw [if_neg (by decide), if_neg (fun hc => absurd hc.1 (by decide)),
      if_neg (by decide), if_neg (by decide)]
  · intro dn ct e v
    unfold parse_step
    rw [if_neg (by decide), if_neg (fun hc => absurd hc.1 (by decide)),
      if_neg (by decide), if_neg (by decide)]
  · intro dn ct e v
    unfold parse_step
    rw [if_neg (by decide), if_neg (fun hc => absurd hc.1 (by decide)),
      if_neg (by decide), if_pos (by decide)]
  · have hs : toStr "DN: cn=x\na: 1\n\n" =
        linesToStream [toStr "DN: cn=x", toStr "a: 1", toStr ""] := by decide
    rw [hs, parse_lines [] [] 0 (fun _ => []) _ 3 (by decide) (by decide)]
    decide

/-- C7: the DN grammar validator on the five reference inputs: the empty
    string and well-formed DNs (including a multi-valued RDN) are accepted;
    a missing attribute type and an empty RDN between commas are rejected.
    `is_dn` is a total Lean function, hence pure and total. -/
theorem c7_is_dn_grammar :
    is_dn (toStr "") = true
    ∧ is_dn (toStr "cn=A,dc=example,dc=com") = true
    ∧ is_dn (toStr "cn=A+sn=B") = true
    ∧ is_dn (toStr "=noattr") = false
    ∧ is_dn (toStr "cn=A,,dc=com") = false := by
  decide

/-- The value condition of claim C4, written from the claim's words: the
    type is (case-insensitively) in the forced-base64 set, or the value
    starts with NUL, LF, CR, space, or colon, or contains NUL, LF, CR, or
    any byte ≥ 0x80, or ends with one or more trailing spaces. -/
def c4_claim_condition (forced : List Str) (t v : Str) : Bool :=
  (forced.map lowerStr).contains (lowerStr t)
  || (match v.head? with
      | some c => c = '\x00' || c = '\n' || c = '\r' || c = ' ' || c = ':'
      | none => false)
  || v.any (fun c => c = '\x00' || c = '\n' || c = '\r' || 128 ≤ c.toNat)
  || v.getLast? == some ' '

/-- As `c4_claim_condition`, but with `<` added to the set of first
    characters that force base64, as in `SAFE_STRING_PATTERN`. -/
def c4_claim_condition_amended (forced : List Str) (t v : Str) : Bool :=
  (forced.map lowerStr).contains (lowerStr t)
  || (match v.head? with
      | some c => c = '\x00' || c = '\n' || c = '\r' || c = ' ' || c = ':' || c = '<'
      | none => false)
  || v.any (fun c => c = '\x00' || c = '\n' || c = '\r' || 128 ≤ c.toNat)
  || v.getLast? == some ' '

/-- C4 (counterexample): a plain ASCII value starting with `<` has none of
    the features listed in the claim, yet `_needs_base64_encoding` returns
    true for it, because the pattern's start set also contains `<`. -/
theorem c4_lt_sign_counterexample :
    needs_base64_encoding [] (toStr "a") (toStr "<x") = true
    ∧ c4_claim_condition [] (toStr "a") (toStr "<x") = false := by
  decide

/-- C4 (amended): for byte-string values, `_needs_base64_encoding` holds iff
    the type is (case-insensitively) in the forced-base64 set, or the value
    starts with NUL, LF, CR, space, colon, or `<`, or contains NUL, LF, CR,
    or a byte ≥ 0x80, or ends with a trailing space. -/
theorem c4_needs_base64_iff (forced : List Str) (t v : Str)
    (hv : ∀ c ∈ v, c.toNat < 256) :
    needs_base64_encoding forced t v = c4_claim_condition_amended forced t v := by
  have hiff : ∀ a b : Bool, (a = true ↔ b = true) → a = b := by
    intro a b h
    cases a <;> cases b <;> simp_all
  apply hiff
  unfold needs_base64_encoding c4_claim_condition_amended safe_string_search list_dict
    safe_head_char safe_bad_char
  simp only [Bool.or_eq_true, Bool.and_eq_true, List.any_eq_true, beq_iff_eq,
    decide_eq_true_eq]
  constructor
  · rintro (hA | (((hH | hC) | hT1) | hT2))
    · exact .inl (.inl (.inl hA))
    · exact .inl (.inl (.inr hH))
    · obtain ⟨c, hc, hcond⟩ := hC
      refine .inl (.inr ⟨c, hc, ?_⟩)
      rcases hcond with h3 | h4
      · exact .inl h3
      · exact .inr h4.1
    · exact .inr hT1
    · refine .inl (.inr ⟨'\n', getLast?_mem hT2.1, .inl (.inl (.inr rfl))⟩)
  · rintro (((hA | hH) | hC) | hT1)
    · exact .inl hA
    · exact .inr (.inl (.inl (.inl hH)))
    · obtain ⟨c, hc, hcond⟩ := hC
      refine .inr (.inl (.inl (.inr ⟨c, hc, ?_⟩)))
      rcases hcond with h3 | h4
      · exact .inl h3
      · exact .inr ⟨h4, by have := hv c hc; omega⟩
    · exact .inr (.inl (.inr hT1))

/-- C4 witness: the amended equivalence evaluated at a concrete high-bit
    byte value. -/
theorem c4_needs_base64_iff_witness :
    needs_base64_encoding [] (toStr "a") [Char.ofNat 255]
      = c4_claim_condition_amended [] (toStr "a") [Char.ofNat 255] :=
  c4_needs_base64_iff [] (toStr "a") [Char.ofNat 255] (by decide)

theorem fold_line_ne_nil (cols : Nat) (sep : Str) (line : Str)
    (hcols : 2 ≤ cols) (hline : line ≠ []) :
    fold_line cols sep line ≠ [] := by
  unfold fold_line
  split
  · simp [hline]
  · rename_i hlong
    have : line.take cols ≠ [] := by
      intro hnil
      have hlen := congrArg List.length hnil
      simp only [List.length_take, List.length_nil] at hlen
      have h0 : 0 < line.length := List.length_pos.mpr hline
      omega
    simp [this]

theorem unparse_attr_ne_nil (battrs : List Str) (cols : Nat) (sep : Str) (t v : Str)
    (hcols : 2 ≤ cols) (ht : t ≠ []) :
    unparse_attr battrs cols sep t v ≠ [] := by
  unfold unparse_attr
  split
  · apply fold_line_ne_nil cols sep _ hcols
    simp [ht]
  · apply fold_line_ne_nil cols sep _ hcols
    simp [ht]

theorem unparse_mods_ok_shape (battrs : List Str) (cols : Nat) (sep : Str) (ml_len : Nat) :
    ∀ (l : List ModItem), (unparse_mods battrs cols sep ml_len l).2 = none →
      ∀ m ∈ l, m.len = ml_len := by
  intro l
  induction l with
  | nil =>
    intro _ m hm
    cases hm
  | cons m0 rest ih =>
    intro hok m hm
    by_cases h2 : ml_len = 2
    · subst h2
      cases m0 with
      | pair t vs =>
        have hok2 : (unparse_mods battrs cols sep 2 rest).2 = none := hok
        rcases List.mem_cons.mp hm with h | h
        · subst h
          rfl
        · exact ih hok2 m h
      | triple op t vs => exact Option.noConfusion hok
      | other n => exact Option.noConfusion hok
    · by_cases h3 : ml_len = 3
      · subst h3
        cases m0 with
        | pair t vs => exact Option.noConfusion hok
        | triple op t vs =>
          have hok2 : (match MOD_OP_STR op with
              | none => (([] : Str), some WErr.keyError)
              | some ops => (unparse_attr battrs cols sep ops t
                  ++ concatMap (fun v => unparse_attr battrs cols sep t v) vs
                  ++ ('-' :: sep) ++ (unparse_mods battrs cols sep 3 rest).1,
                (unparse_mods battrs cols sep 3 rest).2)).2 = none := hok
          cases hop : MOD_OP_STR op with
          | none =>
            rw [hop] at hok2
            exact Option.noConfusion hok2
          | some ops =>
            rw [hop] at hok2
            rcases List.mem_cons.mp hm with h | h
            · subst h
              rfl
            · exact ih hok2 m h
        | other n => exact Option.noConfusion hok
      · have hif : unparse_mods battrs cols sep ml_len (m0 :: rest)
            = ([], some .wrongLength) := by
          rw [unparse_mods.eq_def]
          simp only [if_neg h2, if_neg h3]
        rw [hif] at hok
        exact Option.noConfusion hok

theorem unparse_change_record_err (battrs : List Str) (cols : Nat) (sep : Str)
    (ml : List ModItem) (m0 : ModItem) (h0 : ml.head? = some m0)
    (hbad : (m0.len ≠ 2 ∧ m0.len ≠ 3) ∨ ∃ m ∈ ml, m.len ≠ m0.len) :
    (unparse_change_record battrs cols sep ml).2.isSome = true := by
  cases ml with
  | nil => cases h0
  | cons a rest =>
    injection h0 with h0
    subst h0
    by_cases h2 : a.len = 2
    · rw [unparse_change_record, if_pos h2]
      show (unparse_mods battrs cols sep 2 (a :: rest)).2.isSome = true
      cases he : (unparse_mods battrs cols sep 2 (a :: rest)).2 with
      | some e2 => rfl
      | none =>
        exfalso
        rcases hbad with ⟨hb, _⟩ | ⟨m, hm, hne⟩
        · exact hb h2
        · have := unparse_mods_ok_shape battrs cols sep 2 (a :: rest) he m hm
          rw [h2] at hne
          exact hne this
    · by_cases h3 : a.len = 3
      · rw [unparse_change_record, if_neg h2, if_pos h3]
        show (unparse_mods battrs cols sep 3 (a :: rest)).2.isSome = true
        cases he : (unparse_mods battrs cols sep 3 (a :: rest)).2 with
        | some e2 => rfl
        | none =>
          exfalso
          rcases hbad with ⟨_, hb⟩ | ⟨m, hm, hne⟩
          · exact hb h3
          · have := unparse_mods_ok_shape battrs cols sep 3 (a :: rest) he m hm
            rw [h3] at hne
            exact hne this
      · rw [unparse_change_record, if_neg h2, if_neg h3]
        rfl

/-- C3 (counterexample): writing a modlist that mixes a 2-tuple and a
    3-tuple raises (a `ValueError` from tuple unpacking), `records_written`
    is not incremented, but output bytes ARE committed to the stream: the
    `dn:` line, the `changetype: add` line, and the first item's value line
    are already written when the error is raised. -/
theorem c3_mixed_modlist_counterexample :
    (unparse [] 76 (toStr "\n") (toStr "cn=a")
        (.modlist [.pair (toStr "a") [toStr "v"], .triple 0 (toStr "b") [toStr "w"]]))
      = (toStr "dn: cn=a\nchangetype: add\na: v\n", some .unpackError, false) := by
  decide

/-- C3 (amended): for every modlist whose first item has arity other than 2
    or 3, or that mixes arities, `LDIFWriter.unparse` raises (a shape /
    unpack / key error), `records_written` is not incremented, and the
    output is not left unchanged: the already-written bytes, starting with
    the `dn:` line, remain committed (the output is that dn line followed
    by whatever `_unparse_change_record` wrote before raising). -/
theorem c3_bad_modlist_shape (battrs : List Str) (cols : Nat) (sep : Str) (dn : Str)
    (ml : List ModItem) (m0 : ModItem) (hcols : 2 ≤ cols) (h0 : ml.head? = some m0)
    (hbad : (m0.len ≠ 2 ∧ m0.len ≠ 3) ∨ ∃ m ∈ ml, m.len ≠ m0.len) :
    ((unparse battrs cols sep dn (.modlist ml)).2.1).isSome = true
    ∧ (unparse battrs cols sep dn (.modlist ml)).2.2 = false
    ∧ (unparse battrs cols sep dn (.modlist ml)).1 =
        unparse_attr battrs cols sep (toStr "dn") dn
          ++ (unparse_change_record battrs cols sep ml).1
    ∧ (unparse battrs cols sep dn (.modlist ml)).1 ≠ [] := by
  have herr := unparse_change_record_err battrs cols sep ml m0 h0 hbad
  have hdn : unparse_attr battrs cols sep (toStr "dn") dn ≠ [] :=
    unparse_attr_ne_nil battrs cols sep (toStr "dn") dn hcols (by decide)
  cases he : (unparse_change_record battrs cols sep ml).2 with
  | none =>
    rw [he] at herr
    simp at herr
  | some e2 =>
    have hu : unparse battrs cols sep dn (.modlist ml)
        = (unparse_attr battrs cols sep (toStr "dn") dn
            ++ (unparse_change_record battrs cols sep ml).1, some e2, false) := by
      unfold unparse
      simp only [he]
    rw [hu]
    refine ⟨rfl, rfl, rfl, ?_⟩
    simp only [ne_eq, List.append_eq_nil]
    intro hand
    exact hdn hand.1

/-- C3 witness: the amended theorem applied to the concrete mixed modlist. -/
theorem c3_bad_modlist_shape_witness :
    ((unparse [] 76 (toStr "\n") (toStr "cn=a")
        (.modlist [.pair (toStr "a") [toStr "v"],
          .triple 0 (toStr "b") [toStr "w"]])).2.1).isSome = true := by
  have h := c3_bad_modlist_shape [] 76 (toStr "\n") (toStr "cn=a")
    [.pair (toStr "a") [toStr "v"], .triple 0 (toStr "b") [toStr "w"]]
    (.pair (toStr "a") [toStr "v"]) (by omega) rfl
    (.inr ⟨.triple 0 (toStr "b") [toStr "w"], by simp, by decide⟩)
  exact h.1

theorem fold_cont_unfold (cols : Nat) (h2 : 2 ≤ cols) (chunk : Str) :
    '\n' ∉ chunk → '\r' ∉ chunk →
    ∀ (acc rest : Str), rest.head? ≠ some ' ' →
    unfold_aux acc (fold_cont cols (toStr "\n") chunk ++ rest)
      = (acc ++ chunk, (readline rest).1, (readline rest).2) := by
  induction chunk using fold_cont.induct cols (toStr "\n") with
  | case1 =>
    intro _ _ acc rest hrest
    rw [fold_cont, dif_pos rfl]
    simp only [List.nil_append, List.append_nil]
    exact unfold_aux_stop acc rest hrest
  | case2 line hnil hc1 =>
    exact absurd hc1 (by omega)
  | case3 line hnil hc1 ih =>
    intro hLF hCR acc rest hrest
    rw [fold_cont, dif_neg hnil, dif_neg hc1]
    have hLFt : '\n' ∉ ' ' :: line.take (cols - 1) := by
      intro hm
      rcases List.mem_cons.mp hm with h | h
      · cases h
      · exact hLF (List.take_subset _ _ h)
    have hshape : (' ' :: (line.take (cols - 1) ++ toStr "\n"
          ++ fold_cont cols (toStr "\n") (line.drop (cols - 1)))) ++ rest
        = (' ' :: line.take (cols - 1)) ++ '\n'
            :: (fold_cont cols (toStr "\n") (line.drop (cols - 1)) ++ rest) := by
      simp [toStr]
    rw [hshape]
    rw [unfold_aux]
    rw [readline_of_append _ _ hLFt]
    rw [dif_pos (by constructor <;> simp)]
    show unfold_aux
        (acc ++ strip_line_sep ((' ' :: (line.take (cols - 1) ++ ['\n'])).tail))
        (fold_cont cols (toStr "\n") (line.drop (cols - 1)) ++ rest)
      = (acc ++ line, (readline rest).1, (readline rest).2)
    rw [show ((' ' :: (line.take (cols - 1) ++ ['\n'])).tail : Str)
        = line.take (cols - 1) ++ ['\n'] from rfl]
    rw [strip_concat _ (fun hc => hCR (List.take_subset _ _ (getLast?_mem hc)))]
    rw [ih (fun hm => hLF (List.drop_subset _ _ hm)) (fun hm => hCR (List.drop_subset _ _ hm))
      (acc ++ line.take (cols - 1)) rest hrest]
    rw [List.append_assoc, List.take_append_drop]

theorem unfold_fold (cols : Nat) (h2 : 2 ≤ cols) (u rest : Str)
    (hLF : '\n' ∉ u) (hCR : '\r' ∉ u) (hrest : rest.head? ≠ some ' ') :
    unfold_line (readline (fold_line cols (toStr "\n") u ++ rest)).1
                (readline (fold_line cols (toStr "\n") u ++ rest)).2
      = (u, (readline rest).1, (readline rest).2) := by
  unfold fold_line
  split
  · have hshape : (u ++ toStr "\n") ++ rest = u ++ '\n' :: rest := by simp [toStr]
    rw [hshape, readline_of_append u rest hLF]
    exact unfold_line_single u rest (fun hc => hCR (getLast?_mem hc)) hrest
  · have hshape : (u.take cols ++ toStr "\n" ++ fold_cont cols (toStr "\n") (u.drop cols)) ++ rest
        = u.take cols ++ '\n' :: (fold_cont cols (toStr "\n") (u.drop cols) ++ rest) := by
      simp [toStr]
    rw [hshape, readline_of_append _ _ (fun hm => hLF (List.take_subset _ _ hm))]
    rw [unfold_line, strip_concat _ (fun hc => hCR (List.take_subset _ _ (getLast?_mem hc)))]
    rw [fold_cont_unfold cols h2 (u.drop cols) (fun hm => hLF (List.drop_subset _ _ hm))
      (fun hm => hCR (List.drop_subset _ _ hm)) (u.take cols) rest hrest]
    rw [List.take_append_drop]

theorem parse_attr_fold (sch : List Str) (fetch : Str → Str) (cols : Nat) (h2 : 2 ≤ cols)
    (u rest : Str) (hLF : '\n' ∉ u) (hCR : '\r' ∉ u) (hcm : u.head? ≠ some '#')
    (hrest : rest.head? ≠ some ' ') :
    parse_attr sch fetch (readline (fold_line cols (toStr "\n") u ++ rest)).1
                         (readline (fold_line cols (toStr "\n") u ++ rest)).2
      = (decodeLogical sch fetch u, (readline rest).1, (readline rest).2) := by
  rw [parse_attr, unfold_fold cols h2 u rest hLF hCR hrest, dif_neg hcm]

/-- C5 (counterexample): for a string containing a newline, unfolding the
    folded output does not reproduce the string: folding `a\nb` at width 2
    emits the bytes `a\n\n b\n`, whose first logical line unfolds to just
    `a`. -/
theorem c5_embedded_newline_counterexample :
    (unfold_line (readline (fold_line 2 (toStr "\n") (toStr "a\nb"))).1
                 (readline (fold_line 2 (toStr "\n") (toStr "a\nb"))).2).1
      ≠ toStr "a\nb" := by
  have hfc : fold_cont 2 (toStr "\n") ((toStr "a\nb").drop 2) = toStr " b\n" := by
    rw [fold_cont, dif_neg (by decide), dif_neg (by decide)]
    rw [show (((toStr "a\nb").drop 2).drop (2 - 1) : Str) = [] from rfl]
    rw [fold_cont, dif_pos rfl]
    rfl
  have hfl : fold_line 2 (toStr "\n") (toStr "a\nb") = toStr "a\n\n b\n" := by
    rw [fold_line, if_neg (by decide), hfc]
    rfl
  rw [hfl]
  rw [show readline (toStr "a\n\n b\n") = (toStr "a\n", toStr "\n b\n") from rfl]
  rw [show ((toStr "a\n", toStr "\n b\n") : Str × Str).1 = toStr "a\n" from rfl]
  rw [show ((toStr "a\n", toStr "\n b\n") : Str × Str).2 = toStr "\n b\n" from rfl]
  rw [unfold_line, show strip_line_sep (toStr "a\n") = toStr "a" from rfl]
  rw [unfold_aux_stop (toStr "a") (toStr "\n b\n") (by decide)]
  decide

/-- C5 (amended): for every string without embedded CR or LF and every
    width W ≥ 2, unfolding the physical lines produced by folding at width
    W reproduces the string exactly and consumes the whole folded output;
    when folding actually splits (W < length), the first physical line
    carries exactly the first W characters. -/
theorem c5_fold_unfold_roundtrip (s : Str) (W : Nat) (h2 : 2 ≤ W)
    (hLF : '\n' ∉ s) (hCR : '\r' ∉ s) :
    unfold_line (readline (fold_line W (toStr "\n") s)).1
                (readline (fold_line W (toStr "\n") s)).2 = (s, [], [])
    ∧ (W < s.length →
        (readline (fold_line W (toStr "\n") s)).1 = s.take W ++ ['\n']) := by
  constructor
  · have h := unfold_fold W h2 s [] hLF hCR (by simp)
    simpa using h
  · intro hlen
    unfold fold_line
    rw [if_neg (by omega)]
    have hshape : (s.take W ++ toStr "\n" ++ fold_cont W (toStr "\n") (s.drop W))
        = s.take W ++ '\n' :: (fold_cont W (toStr "\n") (s.drop W)) := by
      simp [toStr]
    rw [hshape, readline_of_append _ _ (fun hm => hLF (List.take_subset _ _ hm))]

/-- C5 witness: the amended round trip evaluated at `abcde` with width 2. -/
theorem c5_fold_unfold_roundtrip_witness :
    unfold_line (readline (fold_line 2 (toStr "\n") (toStr "abcde"))).1
                (readline (fold_line 2 (toStr "\n") (toStr "abcde"))).2
      = (toStr "abcde", [], [])
    ∧ (readline (fold_line 2 (toStr "\n") (toStr "abcde"))).1
        = (toStr "abcde").take 2 ++ ['\n'] := by
  have h := c5_fold_unfold_roundtrip (toStr "abcde") 2 (by omega) (by decide) (by decide)
  exact ⟨h.1, h.2 (by decide)⟩

/-! ### Base64 round trip -/

theorem b64val_b64chr : ∀ n, n < 64 → b64val (b64chr n) = some n := by decide

theorem b64chr_ne_pad : ∀ n, n < 64 → b64chr n ≠ '=' := by decide

theorem b64keep_b64chr : ∀ n, n < 64 → b64keep (b64chr n) = true := by decide

theorem b64chr_plain : ∀ n, n < 64 →
    b64chr n ≠ '\n' ∧ b64chr n ≠ '\r' ∧ b64chr n ≠ ':' ∧ b64chr n ≠ ' ' := by decide

theorem b64enc_mem (bs : List Nat) (h : ∀ x ∈ bs, x < 256) :
    ∀ c ∈ b64encBytes bs, c = '=' ∨ ∃ n, n < 64 ∧ c = b64chr n := by
  induction bs using b64encBytes.induct with
  | case1 =>
    intro c hc
    cases hc
  | case2 a =>
    intro c hc
    have ha : a < 256 := h a (by simp)
    rw [b64encBytes] at hc
    simp only [List.mem_cons, List.not_mem_nil, or_false] at hc
    rcases hc with hc | hc | hc | hc
    · exact .inr ⟨a / 4, by omega, hc⟩
    · exact .inr ⟨a % 4 * 16, by omega, hc⟩
    · exact .inl hc
    · exact .inl hc
  | case3 a b =>
    intro c hc
    have ha : a < 256 := h a (by simp)
    have hb : b < 256 := h b (by simp)
    rw [b64encBytes] at hc
    simp only [List.mem_cons, List.not_mem_nil, or_false] at hc
    rcases hc with hc | hc | hc | hc
    · exact .inr ⟨a / 4, by omega, hc⟩
    · exact .inr ⟨a % 4 * 16 + b / 16, by omega, hc⟩
    · exact .inr ⟨b % 16 * 4, by omega, hc⟩
    · exact .inl hc
  | case4 a b c0 rest ih =>
    intro c hc
    have ha : a < 256 := h a (by simp)
    have hb : b < 256 := h b (by simp)
    have hc0 : c0 < 256 := h c0 (by simp)
    rw [b64encBytes] at hc
    simp only [List.mem_cons] at hc
    rcases hc with hc | hc | hc | hc | hc
    · exact .inr ⟨a / 4, by omega, hc⟩
    · exact .inr ⟨a % 4 * 16 + b / 16, by omega, hc⟩
    · exact .inr ⟨b % 16 * 4 + c0 / 64, by omega, hc⟩
    · exact .inr ⟨c0 % 64, by omega, hc⟩
    · exact ih (fun x hx => h x (by simp [hx])) c hc

theorem b64_filter_enc (bs : List Nat) (h : ∀ x ∈ bs, x < 256) :
    (b64encBytes bs).filter b64keep = b64encBytes bs := by
  rw [List.filter_eq_self]
  intro c hc
  rcases b64enc_mem bs h c hc with rfl | ⟨n, hn, rfl⟩
  · decide
  · exact b64keep_b64chr n hn

theorem b64decQuads_pad1 (x y z : Char) (hz : z ≠ '=') :
    b64decQuads [x, y, z, '='] =
      [(b64val x).getD 0 * 4 + (b64val y).getD 0 / 16,
       (b64val y).getD 0 % 16 * 16 + (b64val z).getD 0 / 4] := by
  rw [b64decQuads]
  rw [if_neg hz, if_pos rfl]

theorem b64decQuads_full (x y z w : Char) (rest : List Char) (hz : z ≠ '=') (hw : w ≠ '=') :
    b64decQuads (x :: y :: z :: w :: rest) =
      ((b64val x).getD 0 * 4 + (b64val y).getD 0 / 16)
        :: ((b64val y).getD 0 % 16 * 16 + (b64val z).getD 0 / 4)
        :: ((b64val z).getD 0 % 4 * 64 + (b64val w).getD 0)
        :: b64decQuads rest := by
  rw [b64decQuads]
  rw [if_neg hz, if_neg hw]

theorem b64dec_enc (bs : List Nat) (h : ∀ x ∈ bs, x < 256) :
    b64decQuads (b64encBytes bs) = bs := by
  induction bs using b64encBytes.induct with
  | case1 => rfl
  | case2 a =>
    have ha : a < 256 := h a (by simp)
    show b64decQuads [b64chr (a / 4), b64chr (a % 4 * 16), '=', '='] = [a]
    rw [b64decQuads, if_pos rfl]
    rw [b64val_b64chr (a / 4) (by omega), b64val_b64chr (a % 4 * 16) (by omega)]
    simp only [Option.getD_some]
    congr 1
    omega
  | case3 a b =>
    have ha : a < 256 := h a (by simp)
    have hb : b < 256 := h b (by simp)
    show b64decQuads
        [b64chr (a / 4), b64chr (a % 4 * 16 + b / 16), b64chr (b % 16 * 4), '='] = [a, b]
    rw [b64decQuads_pad1 _ _ _ (b64chr_ne_pad (b % 16 * 4) (by omega))]
    rw [b64val_b64chr (a / 4) (by omega), b64val_b64chr (a % 4 * 16 + b / 16) (by omega),
      b64val_b64chr (b % 16 * 4) (by omega)]
    simp only [Option.getD_some]
    congr 1
    · omega
    · congr 1
      omega
  | case4 a b c rest ih =>
    have ha : a < 256 := h a (by simp)
    have hb : b < 256 := h b (by simp)
    have hc : c < 256 := h c (by simp)
    show b64decQuads (b64chr (a / 4) :: b64chr (a % 4 * 16 + b / 16)
        :: b64chr (b % 16 * 4 + c / 64) :: b64chr (c % 64) :: b64encBytes rest)
      = a :: b :: c :: rest
    rw [b64decQuads_full _ _ _ _ _ (b64chr_ne_pad (b % 16 * 4 + c / 64) (by omega))
      (b64chr_ne_pad (c % 64) (by omega))]
    rw [b64val_b64chr (a / 4) (by omega), b64val_b64chr (a % 4 * 16 + b / 16) (by omega),
      b64val_b64chr (b % 16 * 4 + c / 64) (by omega), b64val_b64chr (c % 64) (by omega)]
    simp only [Option.getD_some]
    rw [ih (fun x hx => h x (by simp [hx]))]
    congr 1
    · omega
    · congr 1
      · omega
      · congr 1
        omega

theorem b64_roundtrip (v : Str) (h : ∀ c ∈ v, c.toNat < 256) :
    b64decode (' ' :: b64encode v) = v := by
  have hbytes : ∀ x ∈ v.map Char.toNat, x < 256 := by
    intro x hx
    obtain ⟨c, hc, rfl⟩ := List.mem_map.mp hx
    exact h c hc
  unfold b64decode b64encode
  rw [List.filter_cons_of_neg (by decide)]
  rw [b64_filter_enc (v.map Char.toNat) hbytes]
  rw [b64dec_enc (v.map Char.toNat) hbytes]
  rw [List.map_map]
  have : ∀ c ∈ v, (Char.ofNat ∘ Char.toNat) c = id c := fun c _ => Char.ofNat_toNat c
  rw [List.map_congr_left this, List.map_id]

/-! ### Decoding the attribute lines the writer produces -/

theorem strIndex_append_cons (t z : Str) (ht : ':' ∉ t) :
    strIndex (t ++ ':' :: z) ':' = some t.length := by
  induction t with
  | nil => rfl
  | cons c cs ih =>
    have hc : ¬ c = ':' := fun h => ht (by simp [h])
    show (if c = ':' then some 0 else (strIndex (cs ++ ':' :: z) ':').map (· + 1))
        = some (cs.length + 1)
    rw [if_neg hc, ih (fun h => ht (List.mem_cons_of_mem c h))]
    rfl

theorem drop_two_after (t : Str) (x y : Char) (v : Str) :
    (t ++ x :: y :: v).drop (t.length + 2) = v := by
  have h1 : (t ++ x :: y :: v) = (t ++ [x, y]) ++ v := by simp
  have h2 : t.length + 2 = (t ++ [x, y]).length := by simp
  rw [h1, h2]
  exact List.drop_left _ _

theorem decodeLogical_plain (schemes : List Str) (fetch : Str → Str) (t v : Str)
    (ht : ':' ∉ t) :
    decodeLogical schemes fetch (t ++ ':' :: ' ' :: v) = some (t, some (pyLstrip v)) := by
  have hmem : ':' ∈ t ++ ':' :: ' ' :: v :=
    List.mem_append_right _ (List.mem_cons_self _ _)
  have htake : (t ++ ':' :: ' ' :: v).take t.length = t := List.take_left t _
  have hdrop : (t ++ ':' :: ' ' :: v).drop t.length = ':' :: ' ' :: v := List.drop_left t _
  have hdrop2 : (t ++ ':' :: ' ' :: v).drop (t.length + 2) = v := drop_two_after t ':' ' ' v
  unfold decodeLogical
  rw [if_neg ?hne]
  case hne =>
    rintro (h | h | h)
    · rw [h] at hmem
      cases hmem
    · rw [h] at hmem
      revert hmem
      decide
    · rw [h] at hmem
      revert hmem
      decide
  simp only [strIndex_append_cons t (' ' :: v) ht, htake, hdrop, hdrop2,
    show (':' :: ' ' :: v).take 2 = [':', ' '] from rfl]
  rw [if_neg (by decide), if_neg (by decide), if_neg (by decide)]

theorem decodeLogical_b64 (schemes : List Str) (fetch : Str → Str) (t w : Str)
    (ht : ':' ∉ t) :
    decodeLogical schemes fetch (t ++ ':' :: ':' :: ' ' :: w)
      = some (t, some (b64decode (' ' :: w))) := by
  have hmem : ':' ∈ t ++ ':' :: ':' :: ' ' :: w :=
    List.mem_append_right _ (List.mem_cons_self _ _)
  have htake : (t ++ ':' :: ':' :: ' ' :: w).take t.length = t := List.take_left t _
  have hdrop : (t ++ ':' :: ':' :: ' ' :: w).drop t.length = ':' :: ':' :: ' ' :: w :=
    List.drop_left t _
  have hdrop2 : (t ++ ':' :: ':' :: ' ' :: w).drop (t.length + 2) = ' ' :: w :=
    drop_two_after t ':' ':' (' ' :: w)
  unfold decodeLogical
  rw [if_neg ?hne]
  case hne =>
    rintro (h | h | h)
    · rw [h] at hmem
      cases hmem
    · rw [h] at hmem
      revert hmem
      decide
    · rw [h] at hmem
      revert hmem
      decide
  simp only [strIndex_append_cons t (':' :: ' ' :: w) ht, htake, hdrop, hdrop2,
    show (':' :: ':' :: ' ' :: w).take 2 = [':', ':'] from rfl]
  rw [if_pos (by decide)]

theorem safe_of_mem_bad (v : Str) (c : Char) (hc : c ∈ v) (hbad : safe_bad_char c = true) :
    safe_string_search v = true := by
  unfold safe_string_search
  have h1 : v.any safe_bad_char = true := List.any_eq_true.mpr ⟨c, hc, hbad⟩
  rw [h1]
  simp

theorem not_safe_no_LF (v : Str) (h : safe_string_search v = false) : '\n' ∉ v := by
  intro hm
  rw [safe_of_mem_bad v '\n' hm (by decide)] at h
  cases h

theorem not_safe_no_CR (v : Str) (h : safe_string_search v = false) : '\r' ∉ v := by
  intro hm
  rw [safe_of_mem_bad v '\r' hm (by decide)] at h
  cases h

theorem not_safe_head (v : Str) (c : Char) (h : safe_string_search v = false)
    (hh : v.head? = some c) : safe_head_char c = false := by
  cases hq : safe_head_char c
  · rfl
  · exfalso
    have hs : safe_string_search v = true := by
      unfold safe_string_search
      rw [hh]
      simp [hq]
    rw [hs] at h
    cases h

theorem needs_base64_nil_battrs (t v : Str) :
    needs_base64_encoding [] t v = safe_string_search v := rfl

theorem head_append_left (t z : Str) (ht : t ≠ []) : (t ++ z).head? = t.head? := by
  cases t with
  | nil => exact absurd rfl ht
  | cons c cs => rfl

theorem head_take (cols : Nat) (u : Str) (h : 1 ≤ cols) : (u.take cols).head? = u.head? := by
  cases u with
  | nil => simp
  | cons c cs =>
    cases cols with
    | zero => omega
    | succ n => rfl

theorem take_ne_nil (cols : Nat) (u : Str) (h : 1 ≤ cols) (hu : u ≠ []) :
    u.take cols ≠ [] := by
  intro hnil
  have hlen := congrArg List.length hnil
  have h0 : 0 < u.length := List.length_pos.mpr hu
  simp only [List.length_take, List.length_nil] at hlen
  omega

theorem fold_line_head (cols : Nat) (sep : Str) (u : Str) (h2 : 2 ≤ cols) (hu : u ≠ []) :
    (fold_line cols sep u).head? = u.head? := by
  unfold fold_line
  split
  · exact head_append_left u sep hu
  · rw [List.append_assoc, head_append_left _ _ (take_ne_nil cols u (by omega) hu)]
    exact head_take cols u (by omega)

theorem unparse_attr_head (battrs : List Str) (cols : Nat) (sep : Str) (t v : Str)
    (h2 : 2 ≤ cols) (ht : t ≠ []) :
    (unparse_attr battrs cols sep t v).head? = t.head? := by
  unfold unparse_attr
  split <;> rw [fold_line_head _ _ _ h2 (by simp [ht])] <;> exact head_append_left t _ ht

theorem b64encode_mem (v : Str) (h : ∀ c ∈ v, c.toNat < 256) :
    ∀ c ∈ b64encode v, c = '=' ∨ ∃ n, n < 64 ∧ c = b64chr n := by
  unfold b64encode
  refine b64enc_mem _ ?_
  intro x hx
  obtain ⟨c, hc, rfl⟩ := List.mem_map.mp hx
  exact h c hc

theorem b64encode_no_ctl (v : Str) (h : ∀ c ∈ v, c.toNat < 256) :
    ∀ c ∈ b64encode v, c ≠ '\n' ∧ c ≠ '\r' := by
  intro c hc
  rcases b64encode_mem v h c hc with rfl | ⟨n, hn, rfl⟩
  · exact ⟨by decide, by decide⟩
  · exact ⟨(b64chr_plain n hn).1, (b64chr_plain n hn).2.1⟩

/-- The shape of attribute-type names the writer may be handed back unchanged
    by the reader: nonempty, colon-free, line-break-free, and not starting
    with the comment or continuation character. -/
def AttrLex (t : Str) : Prop :=
  t ≠ [] ∧ ':' ∉ t ∧ '\n' ∉ t ∧ '\r' ∉ t ∧ t.head? ≠ some '#' ∧ t.head? ≠ some ' '

instance (t : Str) : Decidable (AttrLex t) := by
  unfold AttrLex
  infer_instance

theorem parse_attr_unparse (fetch : Str → Str) (t v rest : Str) (ht : AttrLex t)
    (hv : ∀ c ∈ v, c.toNat < 256)
    (hws : needs_base64_encoding [] t v = false → pyLstrip v = v)
    (hrest : rest.head? ≠ some ' ') :
    parse_attr [] fetch
        (readline (unparse_attr [] 76 (toStr "\n") t v ++ rest)).1
        (readline (unparse_attr [] 76 (toStr "\n") t v ++ rest)).2
      = (some (t, some v), (readline rest).1, (readline rest).2) := by
  obtain ⟨ht0, htc, htLF, htCR, htcm, htsp⟩ := ht
  unfold unparse_attr
  by_cases hb : needs_base64_encoding [] t v = true
  · rw [if_pos hb]
    have hmem : ∀ c ∈ t ++ ':' :: ':' :: ' ' :: b64encode v, c ≠ '\n' ∧ c ≠ '\r' := by
      intro c hc
      rcases List.mem_append.mp hc with hct | hcz
      · exact ⟨fun h => htLF (h ▸ hct), fun h => htCR (h ▸ hct)⟩
      · simp only [List.mem_cons] at hcz
        rcases hcz with rfl | rfl | rfl | hce
        · exact ⟨by decide, by decide⟩
        · exact ⟨by decide, by decide⟩
        · exact ⟨by decide, by decide⟩
        · exact b64encode_no_ctl v hv c hce
    rw [parse_attr_fold [] fetch 76 (by omega) _ rest
      (fun hm => (hmem _ hm).1 rfl) (fun hm => (hmem _ hm).2 rfl)
      (by rw [head_append_left t _ ht0]; exact htcm) hrest]
    rw [decodeLogical_b64 [] fetch t (b64encode v) htc]
    rw [b64_roundtrip v hv]
  · rw [if_neg hb]
    have hbf : needs_base64_encoding [] t v = false := by
      cases hq : needs_base64_encoding [] t v
      · rfl
      · exact absurd hq hb
    have hsafe : safe_string_search v = false := by
      rw [← needs_base64_nil_battrs t v]
      exact hbf
    have hmem : ∀ c ∈ t ++ ':' :: ' ' :: v, c ≠ '\n' ∧ c ≠ '\r' := by
      intro c hc
      rcases List.mem_append.mp hc with hct | hcz
      · exact ⟨fun h => htLF (h ▸ hct), fun h => htCR (h ▸ hct)⟩
      · simp only [List.mem_cons] at hcz
        rcases hcz with rfl | rfl | hce
        · exact ⟨by decide, by decide⟩
        · exact ⟨by decide, by decide⟩
        · exact ⟨fun h => not_safe_no_LF v hsafe (h ▸ hce),
            fun h => not_safe_no_CR v hsafe (h ▸ hce)⟩
    rw [parse_attr_fold [] fetch 76 (by omega) _ rest
      (fun hm => (hmem _ hm).1 rfl) (fun hm => (hmem _ hm).2 rfl)
      (by rw [head_append_left t _ ht0]; exact htcm) hrest]
    rw [decodeLogical_plain [] fetch t v htc, hws hbf]

/-! ### The inner loop on a written record body -/

theorem concatMap_append {α β : Type} (f : α → List β) (l1 l2 : List α) :
    concatMap f (l1 ++ l2) = concatMap f l1 ++ concatMap f l2 := by
  induction l1 with
  | nil => rfl
  | cons x xs ih =>
    show f x ++ concatMap f (xs ++ l2) = (f x ++ concatMap f xs) ++ concatMap f l2
    rw [ih, List.append_assoc]

theorem concatMap_congr {α β : Type} (f g : α → List β) (l : List α)
    (h : ∀ x ∈ l, f x = g x) : concatMap f l = concatMap g l := by
  induction l with
  | nil => rfl
  | cons x xs ih =>
    show f x ++ concatMap f xs = g x ++ concatMap g xs
    rw [h x (List.mem_cons_self x xs), ih (fun y hy => h y (List.mem_cons_of_mem x hy))]

theorem concatMap_map {α β γ : Type} (f : β → List γ) (g : α → β) (l : List α) :
    concatMap f (l.map g) = concatMap (fun x => f (g x)) l := by
  induction l with
  | nil => rfl
  | cons x xs ih =>
    show f (g x) ++ concatMap f (xs.map g) = f (g x) ++ concatMap (fun x => f (g x)) xs
    rw [ih]

/-- The bytes `parse` sees for a sequence of written attribute lines, one
    `(type, value)` pair per call to `_unparse_attr`, at default settings. -/
def attrPairsBytes (pairs : List (Str × Str)) : Str :=
  concatMap (fun p => unparse_attr [] 76 (toStr "\n") p.1 p.2) pairs

theorem attrPairsBytes_head (pairs : List (Str × Str))
    (h : ∀ p ∈ pairs, AttrLex p.1) :
    (attrPairsBytes pairs ++ toStr "\n").head? ≠ some ' ' := by
  cases pairs with
  | nil => decide
  | cons p ps =>
    have hp := h p (List.mem_cons_self p ps)
    show ((unparse_attr [] 76 (toStr "\n") p.1 p.2 ++ attrPairsBytes ps)
        ++ toStr "\n").head? ≠ some ' '
    rw [List.append_assoc,
      head_append_left _ _ (unparse_attr_ne_nil [] 76 (toStr "\n") p.1 p.2 (by omega) hp.1),
      unparse_attr_head [] 76 (toStr "\n") p.1 p.2 (by omega) hp.1]
    exact hp.2.2.2.2.2

theorem parse_attr_blank (sch : List Str) (fetch : Str → Str) (rest : Str)
    (hrest : rest.head? ≠ some ' ') :
    parse_attr sch fetch ['\n'] rest = (none, (readline rest).1, (readline rest).2) := by
  have h := parse_attr_single sch fetch [] rest (by decide) (by decide) hrest
  have h2 : decodeLogical sch fetch [] = none := rfl
  rw [h2] at h
  exact h

theorem parse_step_other (d : Str) (ct : Option Str) (e : Entry) (t v : Str)
    (ht2 : t ≠ toStr "dn") (ht3 : t ≠ toStr "changetype") :
    parse_step [] (some d) ct e t v = .ok (some d, ct, entryInsert e t v) := by
  unfold parse_step
  rw [if_neg ht2, if_neg (fun hc => Option.noConfusion hc.2), if_neg ht3,
    if_neg (fun hc => Bool.noConfusion hc)]

theorem parse_inner_unparse (fetch : Str → Str) (pairs : List (Str × Str)) :
    (∀ p ∈ pairs, AttrLex p.1 ∧ p.1 ≠ toStr "dn" ∧ p.1 ≠ toStr "changetype"
      ∧ (∀ c ∈ p.2, c.toNat < 256)
      ∧ (needs_base64_encoding [] p.1 p.2 = false → pyLstrip p.2 = p.2)) →
    ∀ (d : Str) (ct : Option Str) (e : Entry),
    parse_inner [] [] fetch (some d) ct e
        (readline (attrPairsBytes pairs ++ toStr "\n")).1
        (readline (attrPairsBytes pairs ++ toStr "\n")).2
      = ⟨none, some d, pairs.foldl (fun acc p => entryInsert acc p.1 p.2) e, [], []⟩ := by
  induction pairs with
  | nil =>
    intro _ d ct e
    have hr : readline (attrPairsBytes [] ++ toStr "\n") = (['\n'], []) := rfl
    simp only [hr]
    rw [parse_inner_done_none [] [] fetch (some d) ct e ['\n'] []
      (by rw [parse_attr_blank [] fetch [] (by decide)])]
    rw [parse_attr_blank [] fetch [] (by decide)]
    rfl
  | cons p ps ih =>
    intro hp d ct e
    have hpp := hp p (List.mem_cons_self p ps)
    have hstream : attrPairsBytes (p :: ps) ++ toStr "\n"
        = unparse_attr [] 76 (toStr "\n") p.1 p.2 ++ (attrPairsBytes ps ++ toStr "\n") := by
      show (unparse_attr [] 76 (toStr "\n") p.1 p.2 ++ attrPairsBytes ps) ++ toStr "\n" = _
      rw [List.append_assoc]
    rw [hstream]
    have hrest : (attrPairsBytes ps ++ toStr "\n").head? ≠ some ' ' :=
      attrPairsBytes_head ps (fun q hq => (hp q (List.mem_cons_of_mem p hq)).1)
    have hpa := parse_attr_unparse fetch p.1 p.2 (attrPairsBytes ps ++ toStr "\n")
      hpp.1 hpp.2.2.2.1 hpp.2.2.2.2 hrest
    rw [parse_inner_step [] [] fetch (some d) ct e _ _ p.1 p.2 (by rw [hpa]),
      parse_step_other d ct e p.1 p.2 hpp.2.1 hpp.2.2.1]
    have h21 : (parse_attr [] fetch
        (readline (unparse_attr [] 76 (toStr "\n") p.1 p.2
          ++ (attrPairsBytes ps ++ toStr "\n"))).1
        (readline (unparse_attr [] 76 (toStr "\n") p.1 p.2
          ++ (attrPairsBytes ps ++ toStr "\n"))).2).2.1
        = (readline (attrPairsBytes ps ++ toStr "\n")).1 := by rw [hpa]
    have h22 : (parse_attr [] fetch
        (readline (unparse_attr [] 76 (toStr "\n") p.1 p.2
          ++ (attrPairsBytes ps ++ toStr "\n"))).1
        (readline (unparse_attr [] 76 (toStr "\n") p.1 p.2
          ++ (attrPairsBytes ps ++ toStr "\n"))).2).2.2
        = (readline (attrPairsBytes ps ++ toStr "\n")).2 := by rw [hpa]
    simp only [h21, h22]
    rw [ih (fun q hq => hp q (List.mem_cons_of_mem p hq)) d ct (entryInsert e p.1 p.2)]
    rfl

/-! ### Entry records as attribute-pair streams -/

/-- The `(type, value)` pairs `_unparse_entry_record` writes for an entry
    whose keys are already in ascending order. -/
def entryPairs (e : Entry) : List (Str × Str) :=
  concatMap (fun kv => kv.2.map (fun v => (kv.1, v))) e

theorem sortStrs_sorted_fix (l : List Str) (h : l.Chain' (fun a b => strLe a b = true)) :
    sortStrs l = l := by
  induction l with
  | nil => rfl
  | cons x rest ih =>
    show insertSorted x (sortStrs rest) = x :: rest
    rw [ih h.tail]
    cases rest with
    | nil => rfl
    | cons y ys =>
      have hxy : strLe x y = true := (List.chain'_cons.mp h).1
      show (if strLe x y then x :: y :: ys else y :: insertSorted x ys) = x :: y :: ys
      rw [if_pos hxy]

theorem entryGet_cons_self (k : Str) (vs : List Str) (rest : Entry) :
    entryGet ((k, vs) :: rest) k = vs := by
  show (if k = k then vs else entryGet rest k) = vs
  rw [if_pos rfl]

theorem entryGet_cons_ne (k t : Str) (vs : List Str) (rest : Entry) (h : k ≠ t) :
    entryGet ((k, vs) :: rest) t = entryGet rest t := by
  show (if k = t then vs else entryGet rest t) = entryGet rest t
  rw [if_neg h]

theorem entry_bytes_eq (entry : Entry) :
    (entry.map Prod.fst).Nodup →
    concatMap (fun t => concatMap (fun v => unparse_attr [] 76 (toStr "\n") t v)
        (entryGet entry t)) (entry.map Prod.fst)
      = attrPairsBytes (entryPairs entry) := by
  induction entry with
  | nil => intro _; rfl
  | cons kv rest ih =>
    intro hn
    obtain ⟨k, vs⟩ := kv
    have hk : k ∉ rest.map Prod.fst := by
      simp only [List.map_cons] at hn
      exact (List.nodup_cons.mp hn).1
    have hn2 : (rest.map Prod.fst).Nodup := by
      simp only [List.map_cons] at hn
      exact (List.nodup_cons.mp hn).2
    show (concatMap (fun v => unparse_attr [] 76 (toStr "\n") k v)
        (entryGet ((k, vs) :: rest) k))
      ++ concatMap (fun t => concatMap (fun v => unparse_attr [] 76 (toStr "\n") t v)
          (entryGet ((k, vs) :: rest) t)) (rest.map Prod.fst)
      = attrPairsBytes (entryPairs ((k, vs) :: rest))
    rw [entryGet_cons_self k vs rest]
    rw [concatMap_congr _ (fun t => concatMap (fun v => unparse_attr [] 76 (toStr "\n") t v)
        (entryGet rest t)) (rest.map Prod.fst)
      (fun t htm => by rw [entryGet_cons_ne k t vs rest (fun he => hk (he ▸ htm))])]
    rw [ih hn2]
    show _ = attrPairsBytes (vs.map (fun v => (k, v)) ++ entryPairs rest)
    unfold attrPairsBytes
    rw [concatMap_append, concatMap_map]

theorem unparse_entry_eq (entry : Entry)
    (hs : (entry.map Prod.fst).Chain' (fun a b => strLe a b = true))
    (hn : (entry.map Prod.fst).Nodup) :
    unparse_entry_record [] 76 (toStr "\n") entry = attrPairsBytes (entryPairs entry) := by
  unfold unparse_entry_record
  rw [sortStrs_sorted_fix _ hs]
  exact entry_bytes_eq entry hn

theorem entryPairs_mem (entry : Entry) (p : Str × Str) (hp : p ∈ entryPairs entry) :
    ∃ kv ∈ entry, p.1 = kv.1 ∧ p.2 ∈ kv.2 := by
  induction entry with
  | nil => cases hp
  | cons kv rest ih =>
    have hp2 : p ∈ kv.2.map (fun v => (kv.1, v)) ++ entryPairs rest := hp
    rcases List.mem_append.mp hp2 with h1 | h2
    · obtain ⟨v, hv, rfl⟩ := List.mem_map.mp h1
      exact ⟨kv, List.mem_cons_self _ _, rfl, hv⟩
    · obtain ⟨q, hq, h⟩ := ih h2
      exact ⟨q, List.mem_cons_of_mem _ hq, h⟩

/-! ### Rebuilding the entry dict from inserted pairs -/

theorem entryInsert_new (acc : Entry) (t v : Str) (hk : ∀ p ∈ acc, p.1 ≠ t) :
    entryInsert acc t v = acc ++ [(t, [v])] := by
  induction acc with
  | nil => rfl
  | cons q rest ih =>
    obtain ⟨k, vs⟩ := q
    show (if k = t then (k, vs ++ [v]) :: rest else (k, vs) :: entryInsert rest t v)
      = (k, vs) :: rest ++ [(t, [v])]
    rw [if_neg (hk (k, vs) (List.mem_cons_self _ _)),
      ih (fun p hp => hk p (List.mem_cons_of_mem _ hp))]
    rfl

theorem entryInsert_last (acc : Entry) (t : Str) (w : List Str) (v : Str)
    (hk : ∀ p ∈ acc, p.1 ≠ t) :
    entryInsert (acc ++ [(t, w)]) t v = acc ++ [(t, w ++ [v])] := by
  induction acc with
  | nil =>
    show (if t = t then (t, w ++ [v]) :: [] else (t, w) :: entryInsert [] t v)
      = [] ++ [(t, w ++ [v])]
    rw [if_pos rfl]
    rfl
  | cons q rest ih =>
    obtain ⟨k, vs⟩ := q
    show (if k = t then (k, vs ++ [v]) :: (rest ++ [(t, w)])
        else (k, vs) :: entryInsert (rest ++ [(t, w)]) t v)
      = (k, vs) :: rest ++ [(t, w ++ [v])]
    rw [if_neg (hk (k, vs) (List.mem_cons_self _ _)),
      ih (fun p hp => hk p (List.mem_cons_of_mem _ hp))]
    rfl

theorem foldl_insert_vals (t : Str) (acc : Entry) (w vs : List Str)
    (hk : ∀ p ∈ acc, p.1 ≠ t) :
    vs.foldl (fun a v => entryInsert a t v) (acc ++ [(t, w)]) = acc ++ [(t, w ++ vs)] := by
  induction vs generalizing w with
  | nil => simp
  | cons v vrest ih =>
    show vrest.foldl (fun a v => entryInsert a t v) (entryInsert (acc ++ [(t, w)]) t v)
      = acc ++ [(t, w ++ v :: vrest)]
    rw [entryInsert_last acc t w v hk, ih (w ++ [v])]
    simp

theorem foldl_insert_pairs (entry : Entry) :
    ∀ e0 : Entry, (∀ kv ∈ entry, kv.2 ≠ []) →
    (∀ kv ∈ entry, ∀ p ∈ e0, p.1 ≠ kv.1) →
    (entry.map Prod.fst).Nodup →
    (entryPairs entry).foldl (fun a p => entryInsert a p.1 p.2) e0 = e0 ++ entry := by
  induction entry with
  | nil =>
    intro e0 _ _ _
    simp [entryPairs, concatMap]
  | cons kv rest ih =>
    intro e0 hne hdisj hnd
    obtain ⟨k, vs⟩ := kv
    have hk0 : ∀ p ∈ e0, p.1 ≠ k := fun p hp => hdisj (k, vs) (List.mem_cons_self _ _) p hp
    have hkrest : k ∉ rest.map Prod.fst := by
      simp only [List.map_cons] at hnd
      exact (List.nodup_cons.mp hnd).1
    have hnd2 : (rest.map Prod.fst).Nodup := by
      simp only [List.map_cons] at hnd
      exact (List.nodup_cons.mp hnd).2
    obtain ⟨v0, vrest, rfl⟩ : ∃ v0 vrest, vs = v0 :: vrest := by
      cases vs with
      | nil => exact absurd rfl (hne (k, []) (List.mem_cons_self _ _))
      | cons a b => exact ⟨a, b, rfl⟩
    show (((v0 :: vrest).map (fun v => (k, v)) ++ entryPairs rest).foldl
        (fun a p => entryInsert a p.1 p.2) e0) = e0 ++ (k, v0 :: vrest) :: rest
    rw [List.foldl_append, List.foldl_map]
    have hinit : (v0 :: vrest).foldl (fun a v => entryInsert a (k, v).1 (k, v).2) e0
        = e0 ++ [(k, v0 :: vrest)] := by
      show vrest.foldl (fun a v => entryInsert a k v) (entryInsert e0 k v0)
        = e0 ++ [(k, v0 :: vrest)]
      rw [entryInsert_new e0 k v0 hk0, foldl_insert_vals k e0 [v0] vrest hk0]
      rfl
    rw [hinit]
    have hdisj2 : ∀ q ∈ rest, ∀ p ∈ e0 ++ [(k, v0 :: vrest)], p.1 ≠ q.1 := by
      intro q hq p hp
      rcases List.mem_append.mp hp with hpe | hpk
      · exact hdisj q (List.mem_cons_of_mem _ hq) p hpe
      · have hpk2 : p = (k, v0 :: vrest) := List.mem_singleton.mp hpk
        rw [hpk2]
        show k ≠ q.1
        intro he
        rw [he] at hkrest
        exact hkrest (List.mem_map.mpr ⟨q, hq, rfl⟩)
    rw [ih (e0 ++ [(k, v0 :: vrest)]) (fun q hq => hne q (List.mem_cons_of_mem _ hq))
      hdisj2 hnd2]
    rw [List.append_assoc]
    rfl

/-- C2 (counterexample): the write-then-parse round trip fails on three of
    the value shapes the claim ranges over.  (i) A value starting with a tab
    is written in plain form and `lstrip`ed back to `x` by the reader, so the
    dispatched entry differs from the original; (ii) a key with an empty
    value list produces no attribute line, so the key vanishes and the
    record (now empty) is not even dispatched; (iii) an empty entry mapping
    dispatches nothing at all, while the claim promises a deep-equal
    dispatched record in every case. -/
theorem c2_roundtrip_counterexample :
    (parse [] [] 0 (fun _ => [])
        (unparse [] 76 (toStr "\n") (toStr "cn=a")
          (.entry [(toStr "a", [toStr "\tx"])])).1
      = ⟨[(some (toStr "cn=a"), [(toStr "a", [toStr "x"])])], 1, none, [], []⟩
      ∧ toStr "x" ≠ toStr "\tx")
    ∧ parse [] [] 0 (fun _ => [])
        (unparse [] 76 (toStr "\n") (toStr "cn=a") (.entry [(toStr "a", [])])).1
      = ⟨[], 0, none, [], []⟩
    ∧ parse [] [] 0 (fun _ => [])
        (unparse [] 76 (toStr "\n") (toStr "cn=a") (.entry [])).1
      = ⟨[], 0, none, [], []⟩ := by
  refine ⟨⟨?_, by decide⟩, ?_, ?_⟩
  · have hs : (unparse [] 76 (toStr "\n") (toStr "cn=a")
        (.entry [(toStr "a", [toStr "\tx"])])).1
        = linesToStream [toStr "dn: cn=a", toStr "a: \tx", toStr ""] := by decide
    rw [hs, parse_lines [] [] 0 (fun _ => []) _ 3 (by decide) (by decide)]
    decide
  · have hs : (unparse [] 76 (toStr "\n") (toStr "cn=a") (.entry [(toStr "a", [])])).1
        = linesToStream [toStr "dn: cn=a", toStr ""] := by decide
    rw [hs, parse_lines [] [] 0 (fun _ => []) _ 2 (by decide) (by decide)]
    decide
  · have hs : (unparse [] 76 (toStr "\n") (toStr "cn=a") (.entry [])).1
        = linesToStream [toStr "dn: cn=a", toStr ""] := by decide
    rw [hs, parse_lines [] [] 0 (fun _ => []) _ 2 (by decide) (by decide)]
    decide

/-- C2 (amended): the write-then-parse round trip does hold at the writer's
    default settings for every valid dn and nonempty entry whose keys are
    well-formed attribute names in strictly ascending order, whose value
    lists are nonempty byte strings, and whose plain-written values (and the
    dn) survive the reader's `lstrip`: `parse` dispatches exactly the
    original `(dn, entry)` once and consumes the whole stream.  Values that
    force base64 (leading space/colon, embedded NUL/LF/CR, bytes ≥ 0x80,
    trailing spaces) round-trip exactly; only plain-form values starting
    with the non-regex whitespace `\t \x0b \x0c` are mutilated, as the
    counterexample shows. -/
theorem c2_entry_roundtrip (fetch : Str → Str) (dn : Str) (entry : Entry)
    (hdn_valid : is_dn dn = true)
    (hdn_bytes : ∀ c ∈ dn, c.toNat < 256)
    (hdn_ws : needs_base64_encoding [] (toStr "dn") dn = false → pyLstrip dn = dn)
    (hne : entry ≠ [])
    (hsorted : (entry.map Prod.fst).Chain' (fun a b => strLe a b = true))
    (hnodup : (entry.map Prod.fst).Nodup)
    (hkeys : ∀ kv ∈ entry, AttrLex kv.1 ∧ kv.1 ≠ toStr "dn" ∧ kv.1 ≠ toStr "changetype")
    (hvals : ∀ kv ∈ entry, kv.2 ≠ [] ∧ ∀ v ∈ kv.2, (∀ c ∈ v, c.toNat < 256)
      ∧ (needs_base64_encoding [] kv.1 v = false → pyLstrip v = v)) :
    parse [] [] 0 fetch (unparse [] 76 (toStr "\n") dn (.entry entry)).1
      = ⟨[(some dn, entry)], 1, none, [], []⟩ := by
  have hS : (unparse [] 76 (toStr "\n") dn (.entry entry)).1
      = unparse_attr [] 76 (toStr "\n") (toStr "dn") dn
        ++ (attrPairsBytes (entryPairs entry) ++ toStr "\n") := by
    show (unparse_attr [] 76 (toStr "\n") (toStr "dn") dn
        ++ unparse_entry_record [] 76 (toStr "\n") entry) ++ toStr "\n"
      = unparse_attr [] 76 (toStr "\n") (toStr "dn") dn
        ++ (attrPairsBytes (entryPairs entry) ++ toStr "\n")
    rw [unparse_entry_eq entry hsorted hnodup, List.append_assoc]
  rw [hS]
  have hplex : ∀ p ∈ entryPairs entry, AttrLex p.1 ∧ p.1 ≠ toStr "dn"
      ∧ p.1 ≠ toStr "changetype" ∧ (∀ c ∈ p.2, c.toNat < 256)
      ∧ (needs_base64_encoding [] p.1 p.2 = false → pyLstrip p.2 = p.2) := by
    intro p hp
    obtain ⟨kv, hkv, h1, h2⟩ := entryPairs_mem entry p hp
    have hK := hkeys kv hkv
    have hV := (hvals kv hkv).2 p.2 h2
    rw [h1]
    exact ⟨hK.1, hK.2.1, hK.2.2, hV.1, hV.2⟩
  have hrest0 : (attrPairsBytes (entryPairs entry) ++ toStr "\n").head? ≠ some ' ' :=
    attrPairsBytes_head _ (fun q hq => (hplex q hq).1)
  have hpa := parse_attr_unparse fetch (toStr "dn") dn
    (attrPairsBytes (entryPairs entry) ++ toStr "\n") (by decide) hdn_bytes hdn_ws hrest0
  have hstep_dn : parse_step [] none none [] (toStr "dn") dn = .ok (some dn, none, []) := by
    unfold parse_step
    rw [if_pos rfl, if_neg (fun hc => Bool.noConfusion hc), if_neg (fun hc => hc hdn_valid)]
  have hinner : parse_inner [] [] fetch none none []
      (readline (unparse_attr [] 76 (toStr "\n") (toStr "dn") dn
        ++ (attrPairsBytes (entryPairs entry) ++ toStr "\n"))).1
      (readline (unparse_attr [] 76 (toStr "\n") (toStr "dn") dn
        ++ (attrPairsBytes (entryPairs entry) ++ toStr "\n"))).2
      = ⟨none, some dn, entry, [], []⟩ := by
    rw [parse_inner_step [] [] fetch none none [] _ _ (toStr "dn") dn (by rw [hpa]), hstep_dn]
    have h21 : (parse_attr [] fetch
        (readline (unparse_attr [] 76 (toStr "\n") (toStr "dn") dn
          ++ (attrPairsBytes (entryPairs entry) ++ toStr "\n"))).1
        (readline (unparse_attr [] 76 (toStr "\n") (toStr "dn") dn
          ++ (attrPairsBytes (entryPairs entry) ++ toStr "\n"))).2).2.1
        = (readline (attrPairsBytes (entryPairs entry) ++ toStr "\n")).1 := by rw [hpa]
    have h22 : (parse_attr [] fetch
        (readline (unparse_attr [] 76 (toStr "\n") (toStr "dn") dn
          ++ (attrPairsBytes (entryPairs entry) ++ toStr "\n"))).1
        (readline (unparse_attr [] 76 (toStr "\n") (toStr "dn") dn
          ++ (attrPairsBytes (entryPairs entry) ++ toStr "\n"))).2).2.2
        = (readline (attrPairsBytes (entryPairs entry) ++ toStr "\n")).2 := by rw [hpa]
    simp only [h21, h22]
    rw [parse_inner_unparse fetch (entryPairs entry) hplex dn none []]
    rw [foldl_insert_pairs entry [] (fun kv hkv => (hvals kv hkv).1)
      (fun kv _ p hp => absurd hp (List.not_mem_nil p)) hnodup]
    rfl
  show parse_loop [] [] 0 fetch [] 0
      (readline (unparse_attr [] 76 (toStr "\n") (toStr "dn") dn
        ++ (attrPairsBytes (entryPairs entry) ++ toStr "\n"))).1
      (readline (unparse_attr [] 76 (toStr "\n") (toStr "dn") dn
        ++ (attrPairsBytes (entryPairs entry) ++ toStr "\n"))).2
    = ⟨[(some dn, entry)], 1, none, [], []⟩
  rw [parse_loop, dif_neg ?hstop]
  case hstop =>
    rintro (h | h)
    · rw [readline_fst_nil] at h
      rcases List.append_eq_nil.mp h with ⟨h1, _⟩
      exact unparse_attr_ne_nil [] 76 (toStr "\n") (toStr "dn") dn (by omega) (by decide) h1
    · exact h.1 rfl
  have herr : (parse_inner [] [] fetch none none []
      (readline (unparse_attr [] 76 (toStr "\n") (toStr "dn") dn
        ++ (attrPairsBytes (entryPairs entry) ++ toStr "\n"))).1
      (readline (unparse_attr [] 76 (toStr "\n") (toStr "dn") dn
        ++ (attrPairsBytes (entryPairs entry) ++ toStr "\n"))).2).err = none := by rw [hinner]
  have hdnf : (parse_inner [] [] fetch none none []
      (readline (unparse_attr [] 76 (toStr "\n") (toStr "dn") dn
        ++ (attrPairsBytes (entryPairs entry) ++ toStr "\n"))).1
      (readline (unparse_attr [] 76 (toStr "\n") (toStr "dn") dn
        ++ (attrPairsBytes (entryPairs entry) ++ toStr "\n"))).2).dn = some dn := by
    rw [hinner]
  have hentf : (parse_inner [] [] fetch none none []
      (readline (unparse_attr [] 76 (toStr "\n") (toStr "dn") dn
        ++ (attrPairsBytes (entryPairs entry) ++ toStr "\n"))).1
      (readline (unparse_attr [] 76 (toStr "\n") (toStr "dn") dn
        ++ (attrPairsBytes (entryPairs entry) ++ toStr "\n"))).2).entry = entry := by
    rw [hinner]
  have hlinef : (parse_inner [] [] fetch none none []
      (readline (unparse_attr [] 76 (toStr "\n") (toStr "dn") dn
        ++ (attrPairsBytes (entryPairs entry) ++ toStr "\n"))).1
      (readline (unparse_attr [] 76 (toStr "\n") (toStr "dn") dn
        ++ (attrPairsBytes (entryPairs entry) ++ toStr "\n"))).2).line = [] := by
    rw [hinner]
  have hinputf : (parse_inner [] [] fetch none none []
      (readline (unparse_attr [] 76 (toStr "\n") (toStr "dn") dn
        ++ (attrPairsBytes (entryPairs entry) ++ toStr "\n"))).1
      (readline (unparse_attr [] 76 (toStr "\n") (toStr "dn") dn
        ++ (attrPairsBytes (entryPairs entry) ++ toStr "\n"))).2).input = [] := by
    rw [hinner]
  simp only [herr, hdnf, hentf, hlinef, hinputf]
  rw [if_neg hne]
  rw [parse_loop, dif_pos (Or.inl rfl)]
  rfl

theorem c2_entry_roundtrip_witness :
    parse [] [] 0 (fun _ => [])
        (unparse [] 76 (toStr "\n") (toStr "cn=a")
          (.entry [(toStr "a", [toStr " x"]), (toStr "b", [toStr "v1", toStr "v2"])])).1
      = ⟨[(some (toStr "cn=a"),
          [(toStr "a", [toStr " x"]), (toStr "b", [toStr "v1", toStr "v2"])])],
        1, none, [], []⟩ :=
  c2_entry_roundtrip (fun _ => []) (toStr "cn=a")
    [(toStr "a", [toStr " x"]), (toStr "b", [toStr "v1", toStr "v2"])]
    (by decide) (by decide) (by decide) (by decide)
    (by
      show List.Chain' (fun a b => strLe a b = true) [toStr "a", toStr "b"]
      exact List.chain'_cons.mpr ⟨by decide, List.chain'_singleton _⟩)
    (by decide) (by decide) (by decide)

end Ldif
